import Mathlib

/-!
# tmbb: Turing machine numbering and execution

A shallow embedding of `tmbb.c`.

* C `enum`s are inductive types; states (`typedef int`) are `Int`.
* `mpz_t` values are `Int`.  The `int` field `num_transitions` is a 32-bit
  two's-complement value: `++` on it is followed by `int_wrap` (signed overflow
  is undefined in C; the wrap is what the usual compilation of `++` gives).
  `ones_counter` is kept exact: on every run from `initialize_tm` it equals the
  number of materialized cells holding `ONE`, so it leaves the `int` range only
  on a tape of more than `INT_MAX` cells.
* The tape cells live in an explicit memory indexed by addresses; a pointer is
  an `Option Nat` (`none` is `NULL`) and `malloc` hands out the next unused
  address.
* `halt()` ends the process: a step that reaches it yields a terminal outcome
  carrying the machine as it was at that moment.
-/

namespace TMBB

/-! ## Data model -/

inductive tm_symbol_t where
  | ZERO
  | ONE
deriving DecidableEq, Repr

inductive tm_shift_t where
  | LEFT
  | RIGHT
deriving DecidableEq, Repr

/-- The sentinel `#define INVALID_STATE -1`. -/
def INVALID_STATE : Int := -1

/-- Largest value of a 32-bit `int`. -/
def INT_MAX : Int := 2147483647

/-- Smallest value of a 32-bit `int`. -/
def INT_MIN : Int := -2147483648

/-- The 32-bit two's-complement `int` that holds `x` modulo `2^32`. -/
def int_wrap (x : Int) : Int :=
  (x + 2147483648) % 4294967296 - 2147483648

/-- A tape cell: its symbol and the addresses of its neighbours. -/
structure tm_tape_cell_t where
  symbol : tm_symbol_t
  left : Option Nat
  right : Option Nat
deriving DecidableEq, Repr

/-- The tape: cell memory, number of cells handed out by `malloc` so far
(addresses `0 .. allocated - 1` are materialized), and the cursor. -/
structure tm_tape_t where
  mem : Nat → tm_tape_cell_t
  allocated : Nat
  current_cell : Nat

structure tm_transition_t where
  next_state : Int
  write_symbol : tm_symbol_t
  shift_direction : tm_shift_t
deriving DecidableEq, Repr

/-- A row is the two-element array `table[i]`, indexed by the read symbol. -/
abbrev tm_row_t := tm_transition_t × tm_transition_t

structure tm_transition_table_t where
  table : List tm_row_t
deriving DecidableEq, Repr

structure tm_turing_machine_t where
  tape : tm_tape_t
  current_state : Int
  final_state : Int
  transition_table : tm_transition_table_t
  ones_counter : Int
  num_states : Int
  num_transitions : Int

/-- Result of one call of `process_transition`. -/
inductive tm_outcome where
  /-- The call returned; the run loop goes on with this machine. -/
  | running (tm : tm_turing_machine_t)
  /-- The invalid-state branch called `halt()`; the machine as it was then. -/
  | halted_invalid (tm : tm_turing_machine_t)
  /-- The lookup `table[current_state][symbol]` left the allocated rows. -/
  | fault

/-- Result of `run_turing_machine`. -/
inductive tm_run_result where
  /-- The loop ended with `current_state == final_state`. -/
  | halted (tm : tm_turing_machine_t)
  /-- A step ended the process in the invalid-state branch. -/
  | halted_invalid (tm : tm_turing_machine_t)
  /-- A step read outside the table. -/
  | fault

/-! ## Tape -/

/-- Store `c` at address `p`. -/
def mem_store (mem : Nat → tm_tape_cell_t) (p : Nat) (c : tm_tape_cell_t) :
    Nat → tm_tape_cell_t :=
  fun a => if a = p then c else mem a

def getRightCell (tape : tm_tape_t) : tm_tape_t :=
  let cur := tape.current_cell
  match (tape.mem cur).right with
  | none =>
    let p := tape.allocated
    let mem1 := mem_store tape.mem cur { tape.mem cur with right := some p }
    let mem2 := mem_store mem1 p { symbol := .ZERO, left := some cur, right := none }
    { mem := mem2, allocated := p + 1, current_cell := p }
  | some r => { tape with current_cell := r }

def getLeftCell (tape : tm_tape_t) : tm_tape_t :=
  let cur := tape.current_cell
  match (tape.mem cur).left with
  | none =>
    let p := tape.allocated
    let mem1 := mem_store tape.mem cur { tape.mem cur with left := some p }
    let mem2 := mem_store mem1 p { symbol := .ZERO, left := none, right := some cur }
    { mem := mem2, allocated := p + 1, current_cell := p }
  | some l => { tape with current_cell := l }

/-- The assignment `tape->current_cell->symbol = s`. -/
def write_symbol_at_cursor (tape : tm_tape_t) (s : tm_symbol_t) : tm_tape_t :=
  { tape with
    mem := mem_store tape.mem tape.current_cell { tape.mem tape.current_cell with symbol := s } }

def writeOne (tape : tm_tape_t) : tm_tape_t :=
  write_symbol_at_cursor tape .ONE

def writeZero (tape : tm_tape_t) : tm_tape_t :=
  write_symbol_at_cursor tape .ZERO

/-- The symbol under the cursor, `tape->current_cell->symbol`. -/
def tm_tape_t.read (tape : tm_tape_t) : tm_symbol_t :=
  (tape.mem tape.current_cell).symbol

/-- Number of materialized cells that hold `ONE`. -/
def tm_tape_t.count_ones (tape : tm_tape_t) : Nat :=
  (List.range tape.allocated).countP (fun a => (tape.mem a).symbol = .ONE)

/-! ## Transition table -/

def row_get (row : tm_row_t) : tm_symbol_t → tm_transition_t
  | .ZERO => row.1
  | .ONE => row.2

def row_set (row : tm_row_t) (s : tm_symbol_t) (t : tm_transition_t) : tm_row_t :=
  match s with
  | .ZERO => (t, row.2)
  | .ONE => (row.1, t)

/-- The read `table->table[state][symbol]`; `none` when `state` is not the
index of an allocated row. -/
def tm_transition_table_t.entry (tb : tm_transition_table_t) (state : Int)
    (symbol : tm_symbol_t) : Option tm_transition_t :=
  if 0 ≤ state then (tb.table[state.toNat]?).map (fun row => row_get row symbol) else none

/-- The table allocated by `initialize_transition_table`: `num_states` rows
(none when `num_states ≤ 0`, the loop body never runs) of two entries.  Only
`next_state` is assigned; `write_symbol` and `shift_direction` keep whatever
the allocation held, given here by `heap`. -/
def initialize_transition_table (num_states : Int)
    (heap : Nat → tm_symbol_t → tm_transition_t) : tm_transition_table_t :=
  { table := (List.range num_states.toNat).map (fun i =>
      ({ heap i .ZERO with next_state := INVALID_STATE },
       { heap i .ONE with next_state := INVALID_STATE })) }

/-- The three field assignments of `set_transition`.  A `current_state` that is
not a row index leaves the table as it is (the C code would write out of
bounds). -/
def set_transition (table : tm_transition_table_t) (current_state : Int)
    (read_symbol : tm_symbol_t) (next_state : Int) (write_symbol : tm_symbol_t)
    (shift_direction : tm_shift_t) : tm_transition_table_t :=
  if 0 ≤ current_state then
    match table.table[current_state.toNat]? with
    | none => table
    | some row =>
      { table := table.table.set current_state.toNat
          (row_set row read_symbol
            { next_state := next_state, write_symbol := write_symbol,
              shift_direction := shift_direction }) }
  else table

/-! ## Codec -/

/-- Loop index `j` of a two-iteration symbol loop as a symbol. -/
def symbol_of_index (j : Nat) : tm_symbol_t :=
  if j = 0 then .ZERO else .ONE

/-- Conversion of an `int` digit to `tm_symbol_t` (`0` is `ZERO`, `1` is `ONE`). -/
def symbol_of_int (d : Int) : tm_symbol_t :=
  if d = 0 then .ZERO else .ONE

/-- The array `bases` filled by the first loop of `generate_transition_table`:
`states * 2` consecutive triples `(states + 1, 2, 2)`. -/
def decode_bases (states : Nat) : List Int :=
  (List.range (states * 2)).flatMap (fun _ => [(states : Int) + 1, 2, 2])

/-- One iteration of the digit loop of `generate_transition_table`:
`mpz_mod`, the store to `output[states * 6 - j - 1]`, `mpz_fdiv_q`. -/
def decode_digit_step (states : Nat) (bases : List Int) (st : Int × List Int) (j : Nat) :
    Int × List Int :=
  let temp_base := bases.getD j 0
  let temp_output := Int.emod st.1 temp_base
  (Int.fdiv st.1 temp_base, st.2.set (states * 6 - j - 1) temp_output)

/-- The digit loop: `j` runs over `0 .. states * 6 - 1`, starting from
`temp_number = number` and an `output` array of `states * 6` slots, each of
which the loop overwrites. -/
def decode_digits (states : Nat) (number : Int) : List Int :=
  ((List.range (states * 6)).foldl (decode_digit_step states (decode_bases states))
    (number, List.replicate (states * 6) 0)).2

/-- Body of the final double loop of `generate_transition_table`. -/
def decode_set_entry (output : List Int) (table : tm_transition_table_t) (i j : Nat) :
    tm_transition_table_t :=
  let idx := i * 6 + j * 3
  set_transition table (i : Int) (symbol_of_index j)
    (output.getD (idx + 2) 0)
    (symbol_of_int (output.getD idx 0))
    (if output.getD (idx + 1) 0 ≠ 0 then .RIGHT else .LEFT)

/-- The inner loop (`j = 0, 1`) of the final double loop for row `i`. -/
def decode_fill_row (output : List Int) (table : tm_transition_table_t) (i : Nat) :
    tm_transition_table_t :=
  (List.range 2).foldl (fun tb (j : Nat) => decode_set_entry output tb i j) table

/-- The final double loop of `generate_transition_table` (`i = 0 .. states - 1`). -/
def decode_fill (states : Nat) (output : List Int) (table : tm_transition_table_t) :
    tm_transition_table_t :=
  (List.range states).foldl (decode_fill_row output) table

def generate_transition_table (tm : tm_turing_machine_t) (number : Int) :
    tm_turing_machine_t :=
  let states := tm.num_states.toNat
  let output := decode_digits states number
  { tm with transition_table := decode_fill states output tm.transition_table }

/-- The array `bases` of `get_turing_machine_number`: `states * 2` consecutive
triples `(2, 2, states + 1)`. -/
def encode_bases (states : Nat) : List Int :=
  (List.range (states * 2)).flatMap (fun _ => [2, 2, (states : Int) + 1])

/-- Body of the double loop of `get_turing_machine_number` for the slot
`(i, j)` holding `transition`; the state is `(result, weight)`.
`mpz_set_ui(temp, transition.next_state)` is taken to load the value of
`next_state` itself (the unsigned wrap of a negative `int` is not modelled). -/
def encode_step (bases : List Int) (i j : Nat) (transition : tm_transition_t)
    (st : Int × Int) : Int × Int :=
  let result := st.1
  let weight := st.2
  let temp := transition.next_state
  let temp := temp * weight
  let result := result + temp
  let weight := weight * bases.getD (i * 6 + j * 3 + 2) 0
  let result := if transition.shift_direction = .RIGHT then result + weight else result
  let weight := weight * bases.getD (i * 6 + j * 3 + 1) 0
  let result := if transition.write_symbol = .ONE then result + weight else result
  let weight := weight * bases.getD (i * 6 + j * 3) 0
  (result, weight)

/-- The inner loop (`j = 1, 0`) of `get_turing_machine_number` for row `i`;
`none` when row `i` is not allocated. -/
def encode_row (states : Nat) (table : tm_transition_table_t) (acc : Option (Int × Int))
    (i : Nat) : Option (Int × Int) :=
  (List.range 2).reverse.foldl
    (fun acc2 (j : Nat) =>
      match acc2, table.entry (i : Int) (symbol_of_index j) with
      | some st, some transition => some (encode_step (encode_bases states) i j transition st)
      | _, _ => none) acc

/-- The double loop of `get_turing_machine_number`: `i` from `states - 1` down
to `0`, `j` from `1` down to `0`, starting from `result = 0`, `weight = 1`. -/
def encode_loop (states : Nat) (table : tm_transition_table_t) : Option (Int × Int) :=
  (List.range states).reverse.foldl (encode_row states table) (some (0, 1))

/-- The integer left in `result`; `none` when the loop read a row that is not
allocated. -/
def get_turing_machine_number (tm : tm_turing_machine_t) : Option Int :=
  (encode_loop tm.num_states.toNat tm.transition_table).map Prod.fst

/-! ## Engine -/

def process_transition (tm : tm_turing_machine_t) : tm_outcome :=
  let symbol := tm.tape.read
  match tm.transition_table.entry tm.current_state symbol with
  | none => .fault
  | some t =>
    let ones1 :=
      if symbol = .ZERO ∧ t.write_symbol = .ONE then tm.ones_counter + 1 else tm.ones_counter
    let ones2 :=
      if symbol = .ONE ∧ t.write_symbol = .ZERO then ones1 - 1 else ones1
    let transitions := int_wrap (tm.num_transitions + 1)
    if t.next_state = INVALID_STATE then
      .halted_invalid { tm with ones_counter := ones2, num_transitions := transitions }
    else
      let tape1 := write_symbol_at_cursor tm.tape t.write_symbol
      let tape2 := if t.shift_direction = .LEFT then getLeftCell tape1 else getRightCell tape1
      .running { tm with
        ones_counter := ones2
        num_transitions := transitions
        tape := tape2
        current_state := t.next_state }

/-- The loop of `run_turing_machine`, cut off after `fuel` iterations
(`none` when the machine is still running then). -/
def run_turing_machine : Nat → tm_turing_machine_t → Option tm_run_result
  | 0, tm => if tm.current_state = tm.final_state then some (.halted tm) else none
  | fuel + 1, tm =>
    if tm.current_state = tm.final_state then some (.halted tm)
    else
      match process_transition tm with
      | .running tm1 => run_turing_machine fuel tm1
      | .halted_invalid tm1 => some (.halted_invalid tm1)
      | .fault => some .fault

def initialize_tm (num_states : Int) (initial_state final_state : Int)
    (heap : Nat → tm_symbol_t → tm_transition_t) : tm_turing_machine_t :=
  { tape :=
      { mem := fun _ => { symbol := .ZERO, left := none, right := none }
        allocated := 1
        current_cell := 0 }
    current_state := initial_state
    final_state := final_state
    num_states := num_states
    num_transitions := 0
    transition_table := initialize_transition_table num_states heap
    ones_counter := 0 }

/-- The loops of `parse_transition_table` over the characters of `input`. -/
def parse_transition_table (tm : tm_turing_machine_t) (input : List Char) :
    tm_turing_machine_t :=
  let num_states := tm.num_states.toNat
  let body (st : tm_transition_table_t × Nat) (i j : Nat) : tm_transition_table_t × Nat :=
    let idx := st.2
    let next_state_char := input.getD (idx + 2) (Char.ofNat 0)
    let next_state : Int := (next_state_char.toNat : Int) - (('A').toNat : Int)
    let write_symbol := if input.getD idx (Char.ofNat 0) = '1' then tm_symbol_t.ONE else .ZERO
    let shift_direction :=
      if input.getD (idx + 1) (Char.ofNat 0) = 'R' then tm_shift_t.RIGHT else .LEFT
    (set_transition st.1 (i : Int) (symbol_of_index j) next_state write_symbol shift_direction,
      idx + 3)
  let final := (List.range num_states).foldl
    (fun st i =>
      let st1 := (List.range 2).foldl (fun st2 j => body st2 i j) st
      (st1.1, st1.2 + 1))
    (tm.transition_table, 0)
  { tm with transition_table := final.1 }

/-! ## Auxiliary definitions used to state and prove the codec properties -/

/-- The digit loop with the store at descending indices read as putting each
new digit in front of the digits produced so far. -/
def extract_digits : List Int → Int → List Int → List Int
  | [], _, output => output
  | b :: bs, temp, output => extract_digits bs (Int.fdiv temp b) (Int.emod temp b :: output)

/-- The row that the final loop of `generate_transition_table` builds from six
consecutive entries of `output`. -/
def row_of_digits (a b c d e f : Int) : tm_row_t :=
  ({ next_state := c, write_symbol := symbol_of_int a,
     shift_direction := if b ≠ 0 then .RIGHT else .LEFT },
   { next_state := f, write_symbol := symbol_of_int d,
     shift_direction := if e ≠ 0 then .RIGHT else .LEFT })

/-- The rows built from `output`, six entries per row. -/
def rows_of_output : List Int → List tm_row_t
  | a :: b :: c :: d :: e :: f :: rest => row_of_digits a b c d e f :: rows_of_output rest
  | _ => []

/-- Number of values one transition can take: `(states + 1) * 2 * 2`. -/
def slot_base (states : Nat) : Int :=
  ((states : Int) + 1) * 2 * 2

/-- Mixed-radix value of one transition at unit weight: `next_state` is the
least significant digit, then the shift bit, then the write bit. -/
def slot_code (states : Nat) (t : tm_transition_t) : Int :=
  t.next_state + ((states : Int) + 1) *
    ((if t.shift_direction = .RIGHT then 1 else 0) + 2 * (if t.write_symbol = .ONE then 1 else 0))

/-- Value of one row: the read-`ONE` transition below the read-`ZERO` one. -/
def row_code (states : Nat) (row : tm_row_t) : Int :=
  slot_code states row.2 + slot_base states * slot_code states row.1

/-- Value of a list of rows, the last row least significant. -/
def rows_value (states : Nat) : List tm_row_t → Int
  | [] => 0
  | row :: rest =>
    rows_value states rest + (slot_base states * slot_base states) ^ rest.length * row_code states row

/-- The transition read off the three lowest digits of `M`. -/
def slot_of_number (states : Nat) (M : Int) : tm_transition_t :=
  { next_state := M % ((states : Int) + 1)
    write_symbol := symbol_of_int (M / ((states : Int) + 1) / 2 % 2)
    shift_direction := if M / ((states : Int) + 1) % 2 ≠ 0 then .RIGHT else .LEFT }

/-- The row read off the six lowest digits of `M`. -/
def number_row (states : Nat) (M : Int) : tm_row_t :=
  (slot_of_number states (M / ((states : Int) + 1) / 2 / 2), slot_of_number states M)

/-- The `n` rows read off the `6 * n` lowest digits of `M`. -/
def number_rows (states : Nat) : Nat → Int → List tm_row_t
  | 0, _ => []
  | n + 1, M =>
    number_rows states n
      (M / ((states : Int) + 1) / 2 / 2 / ((states : Int) + 1) / 2 / 2) ++ [number_row states M]

/-- A set transition of a machine with `states` states: `next_state` in
`[0, states]` (the two enum fields are in range by their type). -/
def slot_valid (states : Nat) (t : tm_transition_t) : Prop :=
  0 ≤ t.next_state ∧ t.next_state ≤ (states : Int)

instance (states : Nat) (t : tm_transition_t) : Decidable (slot_valid states t) := by
  unfold slot_valid
  infer_instance

/-- A table of `states` rows in which every entry is set with `next_state` in
`[0, states]`. -/
def table_valid (states : Nat) (tb : tm_transition_table_t) : Prop :=
  tb.table.length = states ∧
    ∀ row ∈ tb.table, slot_valid states row.1 ∧ slot_valid states row.2

instance (states : Nat) (tb : tm_transition_table_t) : Decidable (table_valid states tb) := by
  unfold table_valid
  infer_instance

/-- A concrete content for the memory backing a freshly allocated table. -/
def zeroed_heap : Nat → tm_symbol_t → tm_transition_t :=
  fun _ _ => { next_state := 0, write_symbol := .ZERO, shift_direction := .LEFT }

/-- The machine `main` runs for `num_states = 2` and machine number 18371. -/
def champion2 : tm_turing_machine_t :=
  generate_transition_table (initialize_tm 2 0 2 zeroed_heap) 18371

/-- The machine `main` runs for `num_states = 3` and machine number 14642600. -/
def champion3 : tm_turing_machine_t :=
  generate_transition_table (initialize_tm 3 0 3 zeroed_heap) 14642600

/-- What `run_turing_machine` prints after a normal halt: `ones_counter` and
`num_transitions`. -/
def run_summary : Option tm_run_result → Option (Int × Int)
  | some (.halted tm) => some (tm.ones_counter, tm.num_transitions)
  | _ => none

/-- `k` calls of `process_transition` in a row, each of which returns (a defined
entry was executed); `none` as soon as one of them does not return. -/
def run_steps : Nat → tm_turing_machine_t → Option tm_turing_machine_t
  | 0, tm => some tm
  | k + 1, tm =>
    match process_transition tm with
    | .running tm1 => run_steps k tm1
    | _ => none

/-- Change of `ones_counter` made by `process_transition` when the cursor reads
`symbol` and the entry's `write_symbol` field is `w`. -/
def ones_delta (symbol w : tm_symbol_t) : Int :=
  (if symbol = .ZERO ∧ w = .ONE then 1 else 0) - (if symbol = .ONE ∧ w = .ZERO then 1 else 0)

/-- Pointers of the materialized cells stay inside the materialized cells, and
so does the cursor. -/
def tape_closed (tape : tm_tape_t) : Prop :=
  tape.current_cell < tape.allocated ∧
    ∀ a, a < tape.allocated →
      (∀ l, (tape.mem a).left = some l → l < tape.allocated) ∧
      (∀ r, (tape.mem a).right = some r → r < tape.allocated)

/-- The first `k` iterations of the loop of `run_turing_machine`: an iteration
whose guard `current_state != final_state` fails leaves the machine as it is (the
loop has ended); an iteration that does not return ends the run with its
outcome. -/
def run_loop : Nat → tm_turing_machine_t → tm_outcome
  | 0, tm => .running tm
  | k + 1, tm =>
    if tm.current_state = tm.final_state then .running tm
    else
      match process_transition tm with
      | .running tm1 => run_loop k tm1
      | .halted_invalid tm1 => .halted_invalid tm1
      | .fault => .fault

/-- The coefficient of one transition in the closed form of the machine number:
`next_state + (N+1)*[shift = RIGHT] + 2(N+1)*[write = ONE]`. -/
def closed_form_slot (N : Nat) (t : tm_transition_t) : Int :=
  t.next_state + ((N : Int) + 1) * (if t.shift_direction = .RIGHT then 1 else 0)
    + 2 * ((N : Int) + 1) * (if t.write_symbol = .ONE then 1 else 0)

/-- The term of state `s` and read symbol `b` in a table of `len` rows:
coefficient times `(4(N+1))^(2(len-1-s) + (1-b))` (`0` when the row is not
allocated). -/
def closed_form_term (N len : Nat) (tb : tm_transition_table_t) (s b : Nat) : Int :=
  match tb.entry (s : Int) (symbol_of_index b) with
  | some t => closed_form_slot N t * (4 * ((N : Int) + 1)) ^ (2 * (len - 1 - s) + (1 - b))
  | none => 0

/-- The mixed-radix closed form of the machine number: the sum over the states
`s` in `[0, N)` and the symbols `b` in `{0, 1}` of
`(next_state + (N+1)*[shift = RIGHT] + 2(N+1)*[write = ONE]) * (4(N+1))^(2(N-1-s) + (1-b))`. -/
def encode_closed_form (N : Nat) (tb : tm_transition_table_t) : Int :=
  ((List.range N).map (fun s =>
    ((List.range 2).map (fun b => closed_form_term N N tb s b)).sum)).sum

/-- The tape operations of the source: `getLeftCell`, `getRightCell`,
`writeOne`, `writeZero`. -/
inductive tape_op where
  | moveLeft
  | moveRight
  | putOne
  | putZero
deriving DecidableEq, Repr

def apply_op (tape : tm_tape_t) : tape_op → tm_tape_t
  | .moveLeft => getLeftCell tape
  | .moveRight => getRightCell tape
  | .putOne => writeOne tape
  | .putZero => writeZero tape

/-- The tape after the operations `ops`, carried out from left to right. -/
def apply_ops (tape : tm_tape_t) (ops : List tape_op) : tm_tape_t :=
  ops.foldl apply_op tape

/-- The conceptual tape of the specification: a symbol at every integer
position and an integer cursor. -/
structure conceptual_tape where
  cells : Int → tm_symbol_t
  cursor : Int

/-- The conceptual tape at the start: `ZERO` everywhere, cursor at 0. -/
def conceptual_blank : conceptual_tape :=
  { cells := fun _ => .ZERO, cursor := 0 }

/-- An operation on the conceptual tape: a move changes the cursor by `-1` or
`+1`, a write changes the symbol at the cursor's position only. -/
def conceptual_op (ct : conceptual_tape) : tape_op → conceptual_tape
  | .moveLeft => { ct with cursor := ct.cursor - 1 }
  | .moveRight => { ct with cursor := ct.cursor + 1 }
  | .putOne => { ct with cells := fun z => if z = ct.cursor then .ONE else ct.cells z }
  | .putZero => { ct with cells := fun z => if z = ct.cursor then .ZERO else ct.cells z }

def conceptual_ops (ct : conceptual_tape) (ops : List tape_op) : conceptual_tape :=
  ops.foldl conceptual_op ct

/-- The symbol the conceptual tape holds under its cursor. -/
def conceptual_tape.read (ct : conceptual_tape) : tm_symbol_t :=
  ct.cells ct.cursor

/-- The linked tape represents the conceptual tape `ct`: `pos` gives the
position of every materialized cell, these positions fill `[lo, hi]` along the
links, and the conceptual tape is `ZERO` outside `[lo, hi]`. -/
def tape_refines (tape : tm_tape_t) (ct : conceptual_tape) (pos : Nat → Int) (lo hi : Int) :
    Prop :=
  tape.current_cell < tape.allocated ∧
  pos tape.current_cell = ct.cursor ∧
  (∀ a, a < tape.allocated →
    lo ≤ pos a ∧ pos a ≤ hi ∧ ct.cells (pos a) = (tape.mem a).symbol) ∧
  (∀ a b, a < tape.allocated → b < tape.allocated → pos a = pos b → a = b) ∧
  (∀ z : Int, (z < lo ∨ hi < z) → ct.cells z = .ZERO) ∧
  (∀ a, a < tape.allocated →
    (∀ r, (tape.mem a).right = some r → r < tape.allocated ∧ pos r = pos a + 1) ∧
    ((tape.mem a).right = none → pos a = hi)) ∧
  (∀ a, a < tape.allocated →
    (∀ l, (tape.mem a).left = some l → l < tape.allocated ∧ pos l = pos a - 1) ∧
    ((tape.mem a).left = none → pos a = lo))

/-- Neighbour links agree in both directions on the materialized cells. -/
def tape_symmetric (tape : tm_tape_t) : Prop :=
  ∀ c, c < tape.allocated →
    (∀ r, (tape.mem c).right = some r → r < tape.allocated ∧ (tape.mem r).left = some c) ∧
    (∀ l, (tape.mem c).left = some l → l < tape.allocated ∧ (tape.mem l).right = some c)

/-- A two-state machine with two entries left unset: `(A, 0) -> 1RB` and
`(B, 0) -> 0LA` are set on a fresh table, `(A, 1)` and `(B, 1)` never are. -/
def gap_machine : tm_turing_machine_t :=
  { initialize_tm 2 0 2 zeroed_heap with
    transition_table :=
      set_transition
        (set_transition (initialize_tm 2 0 2 zeroed_heap).transition_table 0 .ZERO 1 .ONE .RIGHT)
        1 .ZERO 0 .ZERO .LEFT }

/-- The counters and the number of `ONE` cells of the machine with which a step
reached `halt()` in the invalid-state branch. -/
def halt_invalid_summary : tm_outcome → Option (Int × Int × Nat)
  | .halted_invalid tm => some (tm.ones_counter, tm.num_transitions, tm.tape.count_ones)
  | _ => none

/-- The machine `main` runs for `num_states = 2` and machine number 7488
(`0RB0RB_0LA0LA`): it never halts and moves between two cells. -/
def looper : tm_turing_machine_t :=
  generate_transition_table (initialize_tm 2 0 2 zeroed_heap) 7488

/-- The machine `looper` after `n ≥ 1` steps, up to the value of
`ones_counter`: two linked `ZERO` cells, state `B` on the right cell after an odd
number of steps and state `A` on the left cell after an even number. -/
def looper_state (tm : tm_turing_machine_t) (n : Nat) : Prop :=
  tm.transition_table = looper.transition_table ∧
  tm.tape.allocated = 2 ∧
  tm.tape.mem 0 = { symbol := .ZERO, left := none, right := some 1 } ∧
  tm.tape.mem 1 = { symbol := .ZERO, left := some 0, right := none } ∧
  tm.num_transitions = int_wrap (n : Int) ∧
  ((n % 2 = 1 ∧ tm.current_state = 1 ∧ tm.tape.current_cell = 1) ∨
    (n % 2 = 0 ∧ tm.current_state = 0 ∧ tm.tape.current_cell = 0))

instance (tm : tm_turing_machine_t) (n : Nat) : Decidable (looper_state tm n) := by
  unfold looper_state
  infer_instance

/-! # Theorems -/

theorem set_length_append (xs : List Int) (y d : Int) (ys : List Int) :
    (xs ++ y :: ys).set xs.length d = xs ++ d :: ys := by
  induction xs with
  | nil => rfl
  | cons x xs ih => simp [ih]

theorem digit_loop_aux (bs : List Int) : ∀ (temp : Int) (acc : List Int),
    ((List.range bs.length).foldl
      (fun (st : Int × List Int) (j : Nat) =>
        (Int.fdiv st.1 (bs.getD j 0), st.2.set (bs.length - j - 1) (Int.emod st.1 (bs.getD j 0))))
      (temp, List.replicate bs.length 0 ++ acc)).2 = extract_digits bs temp acc := by
  induction bs with
  | nil => intro temp acc; rfl
  | cons b bs ih =>
    intro temp acc
    have hset : (List.replicate (bs.length + 1) (0 : Int) ++ acc).set bs.length (Int.emod temp b)
        = List.replicate bs.length 0 ++ (Int.emod temp b :: acc) := by
      have h := set_length_append (List.replicate bs.length 0) 0 (Int.emod temp b) acc
      rw [List.length_replicate] at h
      rw [List.replicate_succ', List.append_assoc]
      exact h
    rw [List.length_cons, List.range_succ_eq_map, List.foldl_cons, List.foldl_map]
    simp only [List.getD_cons_zero, Nat.sub_zero, Nat.add_sub_cancel, hset]
    have hf : (fun (st : Int × List Int) (j : Nat) =>
        (Int.fdiv st.1 ((b :: bs).getD (Nat.succ j) 0),
          st.2.set (bs.length + 1 - Nat.succ j - 1) (Int.emod st.1 ((b :: bs).getD (Nat.succ j) 0))))
        = (fun (st : Int × List Int) (j : Nat) =>
        (Int.fdiv st.1 (bs.getD j 0), st.2.set (bs.length - j - 1) (Int.emod st.1 (bs.getD j 0)))) := by
      funext st j
      have : bs.length + 1 - Nat.succ j - 1 = bs.length - j - 1 := by omega
      rw [this]
      rfl
    rw [hf, ih]
    rfl

theorem flatMap_range_const_succ {α : Type} (t : List α) (k : Nat) :
    (List.range (k + 1)).flatMap (fun _ => t) = t ++ (List.range k).flatMap (fun _ => t) := by
  rw [List.range_succ_eq_map, List.flatMap_cons, List.flatMap_map]

theorem flatMap_range_const_length {α : Type} (t : List α) (k : Nat) :
    ((List.range k).flatMap (fun _ => t)).length = k * t.length := by
  induction k with
  | zero => simp
  | succ k ih => rw [flatMap_range_const_succ, List.length_append, ih]; ring

theorem decode_bases_length (states : Nat) : (decode_bases states).length = states * 6 := by
  unfold decode_bases
  rw [flatMap_range_const_length]
  simp
  ring

theorem decode_digits_eq (states : Nat) (number : Int) :
    decode_digits states number = extract_digits (decode_bases states) number [] := by
  have h := digit_loop_aux (decode_bases states) number []
  rw [decode_bases_length, List.append_nil] at h
  exact h

theorem set_transition_zero (r : tm_row_t) (rows : List tm_row_t) (s : tm_symbol_t)
    (ns : Int) (w : tm_symbol_t) (d : tm_shift_t) :
    set_transition ⟨r :: rows⟩ ((0 : Nat) : Int) s ns w d
      = ⟨row_set r s ⟨ns, w, d⟩ :: rows⟩ := by
  simp [set_transition]

theorem set_transition_succ (r : tm_row_t) (rows : List tm_row_t) (i : Nat) (s : tm_symbol_t)
    (ns : Int) (w : tm_symbol_t) (d : tm_shift_t) :
    set_transition ⟨r :: rows⟩ ((i + 1 : Nat) : Int) s ns w d
      = ⟨r :: (set_transition ⟨rows⟩ (i : Int) s ns w d).table⟩ := by
  have h0 : (0 : Int) ≤ ((i + 1 : Nat) : Int) := Int.natCast_nonneg _
  have h1 : (0 : Int) ≤ (i : Int) := Int.natCast_nonneg _
  simp only [set_transition, h0, h1, if_true, Int.toNat_natCast, List.getElem?_cons_succ]
  cases rows[i]? <;> simp

theorem decode_set_entry_succ (a b c d e f : Int) (out : List Int) (r : tm_row_t)
    (rows : List tm_row_t) (i j : Nat) :
    decode_set_entry (a :: b :: c :: d :: e :: f :: out) ⟨r :: rows⟩ (i + 1) j
      = ⟨r :: (decode_set_entry out ⟨rows⟩ i j).table⟩ := by
  have e0 : (i + 1) * 6 + j * 3 = (i * 6 + j * 3) + 6 := by ring
  have e1 : (i + 1) * 6 + j * 3 + 1 = (i * 6 + j * 3 + 1) + 6 := by ring
  have e2 : (i + 1) * 6 + j * 3 + 2 = (i * 6 + j * 3 + 2) + 6 := by ring
  unfold decode_set_entry
  simp only [e0, e1, e2, List.getD_cons_succ]
  exact set_transition_succ _ _ _ _ _ _ _

theorem decode_fill_row_succ (a b c d e f : Int) (out : List Int) (r : tm_row_t)
    (rows : List tm_row_t) (i : Nat) :
    decode_fill_row (a :: b :: c :: d :: e :: f :: out) ⟨r :: rows⟩ (i + 1)
      = ⟨r :: (decode_fill_row out ⟨rows⟩ i).table⟩ := by
  have h2 : List.range 2 = [0, 1] := rfl
  simp only [decode_fill_row, h2, List.foldl_cons, List.foldl_nil, decode_set_entry_succ]

theorem decode_fill_row_zero (a b c d e f : Int) (out : List Int) (r : tm_row_t)
    (rows : List tm_row_t) :
    decode_fill_row (a :: b :: c :: d :: e :: f :: out) ⟨r :: rows⟩ 0
      = ⟨row_of_digits a b c d e f :: rows⟩ := by
  have h2 : List.range 2 = [0, 1] := rfl
  simp [decode_fill_row, h2, decode_set_entry, set_transition, row_set, row_of_digits,
    symbol_of_index]

theorem decode_fill_shift (a b c d e f : Int) (out : List Int) (r : tm_row_t) (l : List Nat) :
    ∀ rows : List tm_row_t,
    l.foldl (fun tb (i : Nat) => decode_fill_row (a :: b :: c :: d :: e :: f :: out) tb (i + 1))
        ⟨r :: rows⟩
      = ⟨r :: (l.foldl (decode_fill_row out) ⟨rows⟩).table⟩ := by
  induction l with
  | nil => intro rows; rfl
  | cons i l ih =>
    intro rows
    simp only [List.foldl_cons, decode_fill_row_succ]
    exact ih _

theorem length_six_mul_succ (n : Nat) (output : List Int) (h : output.length = (n + 1) * 6) :
    ∃ a b c d e f out, output = a :: b :: c :: d :: e :: f :: out ∧ out.length = n * 6 := by
  match output, h with
  | a :: b :: c :: d :: e :: f :: out, h =>
    exact ⟨a, b, c, d, e, f, out, rfl, by simp at h; omega⟩
  | [], h => simp at h
  | [_], h => simp at h; omega
  | [_, _], h => simp at h; omega
  | [_, _, _], h => simp at h; omega
  | [_, _, _, _], h => simp at h; omega
  | [_, _, _, _, _], h => simp at h; omega

theorem decode_fill_eq (states : Nat) : ∀ (output : List Int) (rows : List tm_row_t),
    output.length = states * 6 → rows.length = states →
    decode_fill states output ⟨rows⟩ = ⟨rows_of_output output⟩ := by
  induction states with
  | zero =>
    intro output rows ho hr
    have h1 : output = [] := List.length_eq_zero.mp (by simpa using ho)
    have h2 : rows = [] := List.length_eq_zero.mp hr
    subst h1; subst h2
    rfl
  | succ n ih =>
    intro output rows ho hr
    obtain ⟨a, b, c, d, e, f, out, rfl, ho2⟩ := length_six_mul_succ n output ho
    obtain ⟨r, rows2, rfl⟩ := List.exists_cons_of_length_eq_add_one hr
    have hr2 : rows2.length = n := by simpa using hr
    unfold decode_fill
    rw [List.range_succ_eq_map n, List.foldl_cons, List.foldl_map, decode_fill_row_zero]
    have h1 := decode_fill_shift a b c d e f out (row_of_digits a b c d e f) (List.range n) rows2
    have h2 := ih out rows2 ho2 hr2
    unfold decode_fill at h2
    simp only [Nat.succ_eq_add_one]
    rw [h1, h2]
    rfl

theorem int_divmod_mul (M b c : Int) (hb : 0 < b) (hc : 0 < c) :
    M / (b * c) = M / b / c ∧ M % (b * c) = M % b + b * (M / b % c) := by
  have h1 := Int.emod_add_ediv M b
  have h2 := Int.emod_add_ediv (M / b) c
  have r0 := Int.emod_nonneg M (ne_of_gt hb)
  have r1 := Int.emod_lt_of_pos M hb
  have s0 := Int.emod_nonneg (M / b) (ne_of_gt hc)
  have s1 := Int.emod_lt_of_pos (M / b) hc
  have hbc : 0 < b * c := Int.mul_pos hb hc
  apply (Int.ediv_emod_unique hbc).mpr
  refine ⟨?_, ?_, ?_⟩
  · calc M % b + b * (M / b % c) + b * c * (M / b / c)
        = M % b + b * (M / b % c + c * (M / b / c)) := by ring
      _ = M := by rw [h2, h1]
  · have : 0 ≤ b * (M / b % c) := Int.mul_nonneg (le_of_lt hb) s0
    omega
  · have h3 : b * (M / b % c) ≤ b * (c - 1) :=
      Int.mul_le_mul_of_nonneg_left (by omega) (le_of_lt hb)
    have h4 : b * (c - 1) = b * c - b := by ring
    omega

theorem int_add_mul_divmod (r b x : Int) (h0 : 0 ≤ r) (h1 : r < b) :
    (r + b * x) / b = x ∧ (r + b * x) % b = r := by
  have hb : 0 < b := lt_of_le_of_lt h0 h1
  exact (Int.ediv_emod_unique hb).mpr ⟨rfl, h0, h1⟩

theorem slot_base_pos (states : Nat) : 0 < slot_base states := by
  unfold slot_base
  have : (0 : Int) ≤ (states : Int) := Int.natCast_nonneg _
  omega

theorem slot_rest_eq (states : Nat) (M : Int) :
    M / ((states : Int) + 1) / 2 / 2 = M / slot_base states := by
  have hb : (0 : Int) < (states : Int) + 1 := by
    have : (0 : Int) ≤ (states : Int) := Int.natCast_nonneg _
    omega
  have hb2 : (0 : Int) < ((states : Int) + 1) * 2 := by omega
  unfold slot_base
  rw [(int_divmod_mul M (((states : Int) + 1) * 2) 2 hb2 (by decide)).1,
    (int_divmod_mul M ((states : Int) + 1) 2 hb (by decide)).1]

theorem slot_code_number (states : Nat) (M : Int) :
    slot_code states (slot_of_number states M) = M % slot_base states := by
  have hb : (0 : Int) < (states : Int) + 1 := by
    have : (0 : Int) ≤ (states : Int) := Int.natCast_nonneg _
    omega
  have hb2 : (0 : Int) < ((states : Int) + 1) * 2 := by omega
  unfold slot_base
  rw [(int_divmod_mul M (((states : Int) + 1) * 2) 2 hb2 (by decide)).2,
    (int_divmod_mul M ((states : Int) + 1) 2 hb (by decide)).2,
    (int_divmod_mul M ((states : Int) + 1) 2 hb (by decide)).1]
  unfold slot_code slot_of_number symbol_of_int
  rcases Int.emod_two_eq (M / ((states : Int) + 1)) with h1 | h1 <;>
  rcases Int.emod_two_eq (M / ((states : Int) + 1) / 2) with h2 | h2 <;>
  (simp [h1, h2]; try ring)

theorem slot_code_bounds (states : Nat) (t : tm_transition_t) (h : slot_valid states t) :
    0 ≤ slot_code states t ∧ slot_code states t < slot_base states := by
  obtain ⟨h0, h1⟩ := h
  unfold slot_code slot_base
  constructor
  · split_ifs <;> omega
  · split_ifs <;> omega

theorem slot_of_number_code (states : Nat) (t : tm_transition_t) (x : Int)
    (h : slot_valid states t) :
    slot_of_number states (slot_code states t + slot_base states * x) = t ∧
      (slot_code states t + slot_base states * x) / slot_base states = x := by
  obtain ⟨h0, h1⟩ := h
  have hb : (0 : Int) < (states : Int) + 1 := by omega
  constructor
  · obtain ⟨ns, w, d⟩ := t
    simp only at h0 h1
    have key : ∀ s v : Int, 0 ≤ s → s ≤ 1 → 0 ≤ v → v ≤ 1 →
        slot_of_number states (ns + ((states : Int) + 1) * (s + 2 * v) + slot_base states * x)
          = ⟨ns, symbol_of_int v, if s ≠ 0 then .RIGHT else .LEFT⟩ := by
      intro s v s0 s1 v0 v1
      have e : ns + ((states : Int) + 1) * (s + 2 * v) + slot_base states * x
          = ns + ((states : Int) + 1) * (s + 2 * v + 4 * x) := by
        unfold slot_base; ring
      obtain ⟨q1, q2⟩ := int_add_mul_divmod ns ((states : Int) + 1) (s + 2 * v + 4 * x) h0
        (by omega)
      have e1 : (s + 2 * v + 4 * x) % 2 = s := by omega
      have e2 : (s + 2 * v + 4 * x) / 2 % 2 = v := by omega
      unfold slot_of_number
      rw [e, q1, q2, e1, e2]
    cases w <;> cases d
    · simpa [slot_code, symbol_of_int] using key 0 0 (by decide) (by decide) (by decide) (by decide)
    · simpa [slot_code, symbol_of_int] using key 1 0 (by decide) (by decide) (by decide) (by decide)
    · simpa [slot_code, symbol_of_int] using key 0 1 (by decide) (by decide) (by decide) (by decide)
    · simpa [slot_code, symbol_of_int] using key 1 1 (by decide) (by decide) (by decide) (by decide)
  · obtain ⟨c0, c1⟩ := slot_code_bounds states t ⟨h0, h1⟩
    exact (int_add_mul_divmod _ _ x c0 c1).1

theorem number_rest_eq (states : Nat) (M : Int) :
    M / ((states : Int) + 1) / 2 / 2 / ((states : Int) + 1) / 2 / 2
      = M / (slot_base states * slot_base states) := by
  rw [slot_rest_eq, slot_rest_eq,
    (int_divmod_mul M _ _ (slot_base_pos states) (slot_base_pos states)).1]

theorem row_code_number (states : Nat) (M : Int) :
    row_code states (number_row states M) = M % (slot_base states * slot_base states) := by
  unfold row_code number_row
  simp only [slot_code_number, slot_rest_eq]
  rw [(int_divmod_mul M _ _ (slot_base_pos states) (slot_base_pos states)).2]

theorem row_code_bounds (states : Nat) (row : tm_row_t)
    (h : slot_valid states row.1 ∧ slot_valid states row.2) :
    0 ≤ row_code states row ∧ row_code states row < slot_base states * slot_base states := by
  obtain ⟨a0, a1⟩ := slot_code_bounds states row.1 h.1
  obtain ⟨b0, b1⟩ := slot_code_bounds states row.2 h.2
  have hB := slot_base_pos states
  unfold row_code
  constructor
  · have := Int.mul_nonneg (le_of_lt hB) a0
    omega
  · have h3 : slot_base states * slot_code states row.1 ≤ slot_base states * (slot_base states - 1) :=
      Int.mul_le_mul_of_nonneg_left (by omega) (le_of_lt hB)
    have h4 : slot_base states * (slot_base states - 1)
        = slot_base states * slot_base states - slot_base states := by ring
    omega

theorem number_row_code (states : Nat) (row : tm_row_t) (x : Int)
    (h : slot_valid states row.1 ∧ slot_valid states row.2) :
    number_row states (row_code states row + slot_base states * slot_base states * x) = row ∧
      (row_code states row + slot_base states * slot_base states * x)
        / (slot_base states * slot_base states) = x := by
  constructor
  · have e : row_code states row + slot_base states * slot_base states * x
        = slot_code states row.2
          + slot_base states * (slot_code states row.1 + slot_base states * x) := by
      unfold row_code; ring
    unfold number_row
    rw [slot_rest_eq, e, (slot_of_number_code states row.2 _ h.2).1,
      (slot_of_number_code states row.2 _ h.2).2, (slot_of_number_code states row.1 _ h.1).1]
  · obtain ⟨c0, c1⟩ := row_code_bounds states row h
    exact (int_add_mul_divmod _ _ x c0 c1).1

theorem rows_value_append (states : Nat) (rows : List tm_row_t) (last : tm_row_t) :
    rows_value states (rows ++ [last])
      = row_code states last + slot_base states * slot_base states * rows_value states rows := by
  induction rows with
  | nil => simp [rows_value]
  | cons r rows ih =>
    show rows_value states (rows ++ [last])
        + (slot_base states * slot_base states) ^ (rows ++ [last]).length * row_code states r
      = row_code states last + slot_base states * slot_base states
        * (rows_value states rows
          + (slot_base states * slot_base states) ^ rows.length * row_code states r)
    rw [ih, List.length_append, List.length_singleton, pow_succ]
    ring

theorem number_rows_length (states : Nat) (n : Nat) : ∀ M : Int,
    (number_rows states n M).length = n := by
  induction n with
  | zero => intro M; rfl
  | succ n ih => intro M; simp [number_rows, ih]

theorem slot_of_number_valid (states : Nat) (M : Int) :
    slot_valid states (slot_of_number states M) := by
  have hb : (0 : Int) < (states : Int) + 1 := by
    have : (0 : Int) ≤ (states : Int) := Int.natCast_nonneg _
    omega
  have h0 := Int.emod_nonneg M (ne_of_gt hb)
  have h1 := Int.emod_lt_of_pos M hb
  unfold slot_valid slot_of_number
  simp only
  omega

theorem number_rows_valid (states : Nat) (n : Nat) : ∀ M : Int,
    ∀ row ∈ number_rows states n M, slot_valid states row.1 ∧ slot_valid states row.2 := by
  induction n with
  | zero => intro M row h; simp [number_rows] at h
  | succ n ih =>
    intro M row h
    simp only [number_rows, List.mem_append, List.mem_singleton] at h
    rcases h with h | h
    · exact ih _ row h
    · subst h
      exact ⟨slot_of_number_valid _ _, slot_of_number_valid _ _⟩

theorem rows_value_number (states : Nat) (n : Nat) : ∀ M : Int,
    rows_value states (number_rows states n M) = M % (slot_base states * slot_base states) ^ n := by
  induction n with
  | zero => intro M; simp [number_rows, rows_value]
  | succ n ih =>
    intro M
    have hB := slot_base_pos states
    have hBB : 0 < slot_base states * slot_base states := Int.mul_pos hB hB
    have hP : 0 < (slot_base states * slot_base states) ^ n := pow_pos hBB n
    rw [number_rows, rows_value_append, row_code_number, ih, number_rest_eq, pow_succ,
      Int.mul_comm ((slot_base states * slot_base states) ^ n),
      (int_divmod_mul M _ _ hBB hP).2]

theorem number_rows_value (states : Nat) (rows : List tm_row_t) :
    (∀ row ∈ rows, slot_valid states row.1 ∧ slot_valid states row.2) →
    number_rows states rows.length (rows_value states rows) = rows := by
  induction rows using List.reverseRecOn with
  | nil => intro _; rfl
  | append_singleton rows last ih =>
    intro h
    have hl : slot_valid states last.1 ∧ slot_valid states last.2 :=
      h last (by simp)
    have hr : ∀ row ∈ rows, slot_valid states row.1 ∧ slot_valid states row.2 :=
      fun row hm => h row (by simp [hm])
    rw [List.length_append, List.length_singleton, number_rows, number_rest_eq,
      rows_value_append, (number_row_code states last _ hl).1,
      (number_row_code states last _ hl).2, ih hr]

theorem rows_value_bounds (states : Nat) (rows : List tm_row_t) :
    (∀ row ∈ rows, slot_valid states row.1 ∧ slot_valid states row.2) →
    0 ≤ rows_value states rows ∧
      rows_value states rows < (slot_base states * slot_base states) ^ rows.length := by
  intro h
  have hB := slot_base_pos states
  have hBB : 0 < slot_base states * slot_base states := Int.mul_pos hB hB
  have hP : 0 < (slot_base states * slot_base states) ^ rows.length := pow_pos hBB _
  have e := rows_value_number states rows.length (rows_value states rows)
  rw [number_rows_value states rows h] at e
  rw [e]
  exact ⟨Int.emod_nonneg _ (ne_of_gt hP), Int.emod_lt_of_pos _ hP⟩

theorem number_rows_mod (states : Nat) (n : Nat) (M : Int) :
    number_rows states n (M % (slot_base states * slot_base states) ^ n)
      = number_rows states n M := by
  have h := number_rows_value states (number_rows states n M) (number_rows_valid states n M)
  rw [number_rows_length, rows_value_number] at h
  exact h

theorem extract_digits_triple (b M : Int) (rest out : List Int) (hb : 0 ≤ b) :
    extract_digits (b :: 2 :: 2 :: rest) M out
      = extract_digits rest (M / b / 2 / 2) ((M / b / 2 % 2) :: (M / b % 2) :: (M % b) :: out) := by
  simp only [extract_digits]
  rw [Int.fdiv_eq_ediv _ hb, Int.fdiv_eq_ediv _ (by decide : (0 : Int) ≤ 2),
    Int.fdiv_eq_ediv _ (by decide : (0 : Int) ≤ 2)]
  rfl

theorem rows_of_extract_digits (states : Nat) (n : Nat) : ∀ (M : Int) (out : List Int),
    rows_of_output
        (extract_digits ((List.range (n * 2)).flatMap (fun _ => [(states : Int) + 1, 2, 2])) M out)
      = number_rows states n M ++ rows_of_output out := by
  have hb : (0 : Int) ≤ (states : Int) + 1 := by
    have : (0 : Int) ≤ (states : Int) := Int.natCast_nonneg _
    omega
  induction n with
  | zero => intro M out; simp [extract_digits, number_rows]
  | succ n ih =>
    intro M out
    have e : (n + 1) * 2 = n * 2 + 1 + 1 := by ring
    rw [e, flatMap_range_const_succ, flatMap_range_const_succ]
    simp only [List.cons_append, List.nil_append]
    rw [extract_digits_triple _ _ _ _ hb, extract_digits_triple _ _ _ _ hb, ih]
    simp only [number_rows, rows_of_output, List.append_assoc, List.singleton_append]
    rfl

theorem extract_digits_length (bs : List Int) : ∀ (M : Int) (out : List Int),
    (extract_digits bs M out).length = bs.length + out.length := by
  induction bs with
  | nil => intro M out; simp [extract_digits]
  | cons b bs ih =>
    intro M out
    rw [extract_digits, ih, List.length_cons, List.length_cons]
    omega

theorem decode_table_eq (states : Nat) (number : Int) (rows : List tm_row_t)
    (hr : rows.length = states) :
    decode_fill states (decode_digits states number) ⟨rows⟩
      = ⟨number_rows states states number⟩ := by
  have hlen : (decode_digits states number).length = states * 6 := by
    rw [decode_digits_eq, extract_digits_length, decode_bases_length]
    rfl
  rw [decode_fill_eq states _ rows hlen hr, decode_digits_eq]
  have h := rows_of_extract_digits states states number []
  unfold decode_bases
  rw [h]
  simp [rows_of_output]

theorem triple_getD (x y z : Int) (r : Nat) (hr : r < 3) (k : Nat) : ∀ m : Nat, m < k →
    ((List.range k).flatMap (fun _ => [x, y, z])).getD (m * 3 + r) 0 = [x, y, z].getD r 0 := by
  induction k with
  | zero => intro m hm; omega
  | succ k ih =>
    intro m hm
    rw [flatMap_range_const_succ]
    cases m with
    | zero =>
      interval_cases r <;> rfl
    | succ m =>
      have e : (m + 1) * 3 + r = (m * 3 + r) + 1 + 1 + 1 := by ring
      rw [e]
      simp only [List.cons_append, List.nil_append, List.getD_cons_succ]
      exact ih m (by omega)

theorem encode_step_eq (states i j : Nat) (hi : i < states) (hj : j < 2) (t : tm_transition_t)
    (st : Int × Int) :
    encode_step (encode_bases states) i j t st
      = (st.1 + st.2 * slot_code states t, st.2 * slot_base states) := by
  have hm : i * 2 + j < states * 2 := by omega
  have e0 : i * 6 + j * 3 = (i * 2 + j) * 3 + 0 := by ring
  have e1 : i * 6 + j * 3 + 1 = (i * 2 + j) * 3 + 1 := by ring
  have e2 : i * 6 + j * 3 + 2 = (i * 2 + j) * 3 + 2 := by ring
  have b0 := triple_getD 2 2 ((states : Int) + 1) 0 (by decide) (states * 2) _ hm
  have b1 := triple_getD 2 2 ((states : Int) + 1) 1 (by decide) (states * 2) _ hm
  have b2 := triple_getD 2 2 ((states : Int) + 1) 2 (by decide) (states * 2) _ hm
  unfold encode_step encode_bases
  rw [e2, b2, e1, b1, e0, b0]
  unfold slot_code slot_base
  simp only [List.getD_cons_zero, List.getD_cons_succ]
  refine Prod.ext ?_ ?_
  · simp only
    split_ifs <;> ring
  · simp only
    ring

theorem entry_natCast (tb : tm_transition_table_t) (i : Nat) (s : tm_symbol_t) :
    tb.entry (i : Int) s = (tb.table[i]?).map (fun row => row_get row s) := by
  have h0 : (0 : Int) ≤ (i : Int) := Int.natCast_nonneg _
  simp [tm_transition_table_t.entry, h0]

theorem encode_row_some (states i : Nat) (hi : i < states) (tb : tm_transition_table_t)
    (row : tm_row_t) (hrow : tb.table[i]? = some row) (st : Int × Int) :
    encode_row states tb (some st) i
      = some (st.1 + st.2 * row_code states row,
          st.2 * (slot_base states * slot_base states)) := by
  have h2 : (List.range 2).reverse = [1, 0] := rfl
  unfold encode_row
  simp only [h2, List.foldl_cons, List.foldl_nil, entry_natCast, hrow, Option.map_some',
    encode_step_eq states i 1 hi (by decide), encode_step_eq states i 0 hi (by decide)]
  simp only [symbol_of_index, row_get, row_code]
  simp
  constructor <;> ring

theorem encode_loop_aux (states : Nat) (rows : List tm_row_t) (n : Nat) :
    n ≤ states → n ≤ rows.length → ∀ st : Int × Int,
    (List.range n).reverse.foldl (encode_row states ⟨rows⟩) (some st)
      = some (st.1 + st.2 * rows_value states (rows.take n),
          st.2 * (slot_base states * slot_base states) ^ n) := by
  induction n with
  | zero => intro _ _ st; simp [rows_value]
  | succ n ih =>
    intro h1 h2 st
    have hlt : n < rows.length := by omega
    have hrow : rows[n]? = some rows[n] := List.getElem?_eq_getElem hlt
    rw [List.range_succ, List.reverse_append, List.reverse_singleton, List.singleton_append,
      List.foldl_cons, encode_row_some states n (by omega) ⟨rows⟩ rows[n] hrow st,
      ih (by omega) (by omega), List.take_succ, hrow, Option.toList, rows_value_append, pow_succ]
    simp only [Option.some.injEq, Prod.mk.injEq]
    constructor <;> ring

theorem encode_loop_eq (states : Nat) (rows : List tm_row_t) (h : rows.length = states) :
    encode_loop states ⟨rows⟩
      = some (rows_value states rows, (slot_base states * slot_base states) ^ states) := by
  unfold encode_loop
  rw [encode_loop_aux states rows states (le_refl _) (by omega) (0, 1), ← h, List.take_length]
  simp

theorem table_space_eq (N : Nat) :
    (slot_base N * slot_base N) ^ N = (4 * ((N : Int) + 1)) ^ (2 * N) := by
  have e : slot_base N * slot_base N = (4 * ((N : Int) + 1)) ^ 2 := by
    unfold slot_base; ring
  rw [e, pow_mul]

theorem encode_of_valid (N : Nat) (tm : tm_turing_machine_t) (hs : tm.num_states = (N : Int))
    (hlen : tm.transition_table.table.length = N) :
    get_turing_machine_number tm = some (rows_value N tm.transition_table.table) := by
  unfold get_turing_machine_number
  rw [hs, Int.toNat_natCast]
  have h := encode_loop_eq N tm.transition_table.table hlen
  rw [h]
  rfl

theorem decode_of_length (N : Nat) (tm : tm_turing_machine_t) (M : Int)
    (hs : tm.num_states = (N : Int)) (hlen : tm.transition_table.table.length = N) :
    (generate_transition_table tm M).transition_table = ⟨number_rows N N M⟩ := by
  unfold generate_transition_table
  simp only [hs, Int.toNat_natCast]
  exact decode_table_eq N M tm.transition_table.table hlen

theorem encode_decode_mod (N : Nat) (M : Int) (tm : tm_turing_machine_t)
    (hs : tm.num_states = (N : Int)) (hlen : tm.transition_table.table.length = N) :
    get_turing_machine_number (generate_transition_table tm M)
      = some (M % (4 * ((N : Int) + 1)) ^ (2 * N)) := by
  have ht := decode_of_length N tm M hs hlen
  have hs2 : (generate_transition_table tm M).num_states = (N : Int) := hs
  have hl2 : (generate_transition_table tm M).transition_table.table.length = N := by
    rw [ht]; exact number_rows_length N N M
  rw [encode_of_valid N _ hs2 hl2, ht, rows_value_number, table_space_eq]

/-- C1: for every `N ≥ 1` and every machine whose table has `N` rows with all
`2N` entries set and `next_state` in `[0, N]`, `get_turing_machine_number`
returns an integer, and `generate_transition_table` run on that integer in any
machine of `N` states and `N` rows yields a table equal to the original one. -/
theorem decode_encode_roundtrip (N : Nat) (_ : 1 ≤ N) (tm tm2 : tm_turing_machine_t)
    (hs : tm.num_states = (N : Int)) (hT : table_valid N tm.transition_table)
    (hs2 : tm2.num_states = (N : Int)) (hlen2 : tm2.transition_table.table.length = N) :
    ∃ M : Int, get_turing_machine_number tm = some M ∧
      (generate_transition_table tm2 M).transition_table = tm.transition_table := by
  refine ⟨rows_value N tm.transition_table.table, encode_of_valid N tm hs hT.1, ?_⟩
  rw [decode_of_length N tm2 _ hs2 hlen2]
  have h := number_rows_value N tm.transition_table.table hT.2
  rw [hT.1] at h
  rw [h]

theorem decode_encode_roundtrip_witness :
    1 ≤ 2 ∧ champion2.num_states = ((2 : Nat) : Int) ∧ table_valid 2 champion2.transition_table ∧
      (initialize_tm 2 0 2 zeroed_heap).num_states = ((2 : Nat) : Int) ∧
      (initialize_tm 2 0 2 zeroed_heap).transition_table.table.length = 2 ∧
      ∃ M : Int, get_turing_machine_number champion2 = some M ∧
        (generate_transition_table (initialize_tm 2 0 2 zeroed_heap) M).transition_table
          = champion2.transition_table :=
  ⟨by decide, rfl, by decide!, rfl, rfl,
    decode_encode_roundtrip 2 (by decide) champion2 (initialize_tm 2 0 2 zeroed_heap) rfl
      (by decide!) rfl rfl⟩

/-- C2: for every `N ≥ 1` and every integer `M` with `0 ≤ M < (4(N+1))^(2N)`,
decoding `M` into a machine of `N` states (whose table has its `N` rows) and
encoding the result returns exactly `M`. -/
theorem encode_decode_roundtrip (N : Nat) (_ : 1 ≤ N) (M : Int) (tm : tm_turing_machine_t)
    (hs : tm.num_states = (N : Int)) (hlen : tm.transition_table.table.length = N)
    (h0 : 0 ≤ M) (h1 : M < (4 * ((N : Int) + 1)) ^ (2 * N)) :
    get_turing_machine_number (generate_transition_table tm M) = some M := by
  rw [encode_decode_mod N M tm hs hlen, Int.emod_eq_of_lt h0 h1]

theorem encode_decode_roundtrip_witness :
    1 ≤ 2 ∧ (initialize_tm 2 0 2 zeroed_heap).num_states = ((2 : Nat) : Int) ∧
      (initialize_tm 2 0 2 zeroed_heap).transition_table.table.length = 2 ∧
      (0 : Int) ≤ 18371 ∧ (18371 : Int) < (4 * (((2 : Nat) : Int) + 1)) ^ (2 * 2) ∧
      get_turing_machine_number
        (generate_transition_table (initialize_tm 2 0 2 zeroed_heap) 18371) = some 18371 :=
  ⟨by decide, rfl, rfl, by decide, by decide,
    encode_decode_roundtrip 2 (by decide) 18371 (initialize_tm 2 0 2 zeroed_heap) rfl rfl
      (by decide) (by decide)⟩

theorem initialize_tm_length (N : Nat) (i f : Int) (heap : Nat → tm_symbol_t → tm_transition_t) :
    (initialize_tm (N : Int) i f heap).transition_table.table.length = N := by
  simp [initialize_tm, initialize_transition_table]

theorem table_ext (a b : tm_transition_table_t) (h : a.table = b.table) : a = b := by
  cases a
  cases b
  cases h
  rfl

theorem decode_valid (N : Nat) (tm : tm_turing_machine_t) (M : Int)
    (hs : tm.num_states = (N : Int)) (hlen : tm.transition_table.table.length = N) :
    table_valid N (generate_transition_table tm M).transition_table := by
  rw [decode_of_length N tm M hs hlen]
  exact ⟨number_rows_length N N M, number_rows_valid N N M⟩

/-- C3: for every `N ≥ 1`, `get_turing_machine_number` maps every fully set
table of `N` states with `next_state` in `[0, N]` to an integer in
`[0, (4(N+1))^(2N))`; two such tables with the same integer are equal; and every
integer of that range is the number of such a table. -/
theorem codec_bijection (N : Nat) (_ : 1 ≤ N) :
    (∀ tm : tm_turing_machine_t, tm.num_states = (N : Int) →
      table_valid N tm.transition_table →
      ∃ M : Int, get_turing_machine_number tm = some M ∧
        0 ≤ M ∧ M < (4 * ((N : Int) + 1)) ^ (2 * N)) ∧
    (∀ tm1 tm2 : tm_turing_machine_t, tm1.num_states = (N : Int) → tm2.num_states = (N : Int) →
      table_valid N tm1.transition_table → table_valid N tm2.transition_table →
      get_turing_machine_number tm1 = get_turing_machine_number tm2 →
      tm1.transition_table = tm2.transition_table) ∧
    (∀ M : Int, 0 ≤ M → M < (4 * ((N : Int) + 1)) ^ (2 * N) →
      ∃ tm : tm_turing_machine_t, tm.num_states = (N : Int) ∧
        table_valid N tm.transition_table ∧ get_turing_machine_number tm = some M) := by
  refine ⟨?_, ?_, ?_⟩
  · intro tm hs hT
    refine ⟨_, encode_of_valid N tm hs hT.1, ?_⟩
    have h := rows_value_bounds N tm.transition_table.table hT.2
    rw [hT.1, table_space_eq] at h
    exact h
  · intro tm1 tm2 hs1 hs2 hT1 hT2 he
    rw [encode_of_valid N tm1 hs1 hT1.1, encode_of_valid N tm2 hs2 hT2.1] at he
    have hv : rows_value N tm1.transition_table.table = rows_value N tm2.transition_table.table :=
      Option.some.inj he
    have h1 := number_rows_value N tm1.transition_table.table hT1.2
    have h2 := number_rows_value N tm2.transition_table.table hT2.2
    rw [hT1.1, hv] at h1
    rw [hT2.1, h1] at h2
    exact table_ext _ _ h2
  · intro M h0 h1
    have hl := initialize_tm_length N 0 (N : Int) zeroed_heap
    exact ⟨generate_transition_table (initialize_tm (N : Int) 0 (N : Int) zeroed_heap) M, rfl,
      decode_valid N _ M rfl hl,
      by rw [encode_decode_mod N M _ rfl hl, Int.emod_eq_of_lt h0 h1]⟩

theorem codec_bijection_witness :
    1 ≤ 2 ∧
    ((∀ tm : tm_turing_machine_t, tm.num_states = ((2 : Nat) : Int) →
      table_valid 2 tm.transition_table →
      ∃ M : Int, get_turing_machine_number tm = some M ∧
        0 ≤ M ∧ M < (4 * (((2 : Nat) : Int) + 1)) ^ (2 * 2)) ∧
    (∀ tm1 tm2 : tm_turing_machine_t, tm1.num_states = ((2 : Nat) : Int) →
      tm2.num_states = ((2 : Nat) : Int) →
      table_valid 2 tm1.transition_table → table_valid 2 tm2.transition_table →
      get_turing_machine_number tm1 = get_turing_machine_number tm2 →
      tm1.transition_table = tm2.transition_table) ∧
    (∀ M : Int, 0 ≤ M → M < (4 * (((2 : Nat) : Int) + 1)) ^ (2 * 2) →
      ∃ tm : tm_turing_machine_t, tm.num_states = ((2 : Nat) : Int) ∧
        table_valid 2 tm.transition_table ∧ get_turing_machine_number tm = some M)) :=
  ⟨by decide, codec_bijection 2 (by decide)⟩

theorem generate_heap_irrelevant (N : Nat) (i f : Int)
    (heap : Nat → tm_symbol_t → tm_transition_t) (M : Int) :
    generate_transition_table (initialize_tm (N : Int) i f heap) M
      = generate_transition_table (initialize_tm (N : Int) i f zeroed_heap) M := by
  have h1 := decode_of_length N (initialize_tm (N : Int) i f heap) M rfl
    (initialize_tm_length N i f heap)
  have h2 := decode_of_length N (initialize_tm (N : Int) i f zeroed_heap) M rfl
    (initialize_tm_length N i f zeroed_heap)
  unfold generate_transition_table at h1 h2 ⊢
  simp only at h1 h2
  simp only [h1, h2]
  rfl

/-- C4: with `N = 2`, decoding 18371 gives the table `(A,0) -> 1RB`,
`(A,1) -> 1LB`, `(B,0) -> 1LA`, `(B,1) -> 1RC` (`C` is the halting state 2),
which is the table `parse_transition_table` builds from `1RB1LB_1LA1RC`, and
encoding that table gives 18371. -/
theorem champion2_spot_check (heap : Nat → tm_symbol_t → tm_transition_t) :
    (generate_transition_table (initialize_tm 2 0 2 heap) 18371).transition_table
        = ⟨[(⟨1, .ONE, .RIGHT⟩, ⟨1, .ONE, .LEFT⟩), (⟨0, .ONE, .LEFT⟩, ⟨2, .ONE, .RIGHT⟩)]⟩ ∧
      (parse_transition_table (initialize_tm 2 0 2 heap) "1RB1LB_1LA1RC".toList).transition_table
        = (generate_transition_table (initialize_tm 2 0 2 heap) 18371).transition_table ∧
      get_turing_machine_number
        (parse_transition_table (initialize_tm 2 0 2 heap) "1RB1LB_1LA1RC".toList)
        = some 18371 := by
  have hg := generate_heap_irrelevant 2 0 2 heap 18371
  have hd : (generate_transition_table (initialize_tm 2 0 2 zeroed_heap) 18371).transition_table
      = ⟨[(⟨1, .ONE, .RIGHT⟩, ⟨1, .ONE, .LEFT⟩), (⟨0, .ONE, .LEFT⟩, ⟨2, .ONE, .RIGHT⟩)]⟩ := by
    decide!
  have hp : (parse_transition_table (initialize_tm 2 0 2 heap)
      "1RB1LB_1LA1RC".toList).transition_table
      = ⟨[(⟨1, .ONE, .RIGHT⟩, ⟨1, .ONE, .LEFT⟩), (⟨0, .ONE, .LEFT⟩, ⟨2, .ONE, .RIGHT⟩)]⟩ := rfl
  have hg2 : generate_transition_table (initialize_tm 2 0 2 heap) 18371
      = generate_transition_table (initialize_tm 2 0 2 zeroed_heap) 18371 := hg
  refine ⟨by rw [hg2, hd], by rw [hg2, hd, hp], ?_⟩
  rw [encode_of_valid 2 _ rfl (by rw [hp]; rfl), hp]
  decide!

theorem run_summary_halted (r : Option tm_run_result) (a b : Int)
    (h : run_summary r = some (a, b)) :
    ∃ tm : tm_turing_machine_t, r = some (.halted tm) ∧ tm.ones_counter = a ∧
      tm.num_transitions = b := by
  match r, h with
  | some (.halted tm), h =>
    simp only [run_summary, Option.some.injEq, Prod.mk.injEq] at h
    exact ⟨tm, rfl, h.1, h.2⟩

/-- C5: the machine made by `initialize_tm(2, 0, 2)` and loaded with the table
decoded from 18371 reaches `current_state == 2` after 6 calls of
`process_transition`; the run loop then ends with `ones_counter = 4` and
`num_transitions = 6`. -/
theorem champion2_run (heap : Nat → tm_symbol_t → tm_transition_t) :
    ∃ tm : tm_turing_machine_t,
      run_turing_machine 6 (generate_transition_table (initialize_tm 2 0 2 heap) 18371)
        = some (.halted tm) ∧ tm.ones_counter = 4 ∧ tm.num_transitions = 6 := by
  have hg : generate_transition_table (initialize_tm 2 0 2 heap) 18371 = champion2 :=
    generate_heap_irrelevant 2 0 2 heap 18371
  have hsum : run_summary (run_turing_machine 6 champion2) = some (4, 6) := by decide!
  rw [hg]
  exact run_summary_halted _ _ _ hsum

/-- C6: the machine made by `initialize_tm(3, 0, 3)` and loaded with the table
decoded from 14642600 reaches `current_state == 3` after 14 calls of
`process_transition`; the run loop then ends with `ones_counter = 6` and
`num_transitions = 14`. -/
theorem champion3_run (heap : Nat → tm_symbol_t → tm_transition_t) :
    ∃ tm : tm_turing_machine_t,
      run_turing_machine 14 (generate_transition_table (initialize_tm 3 0 3 heap) 14642600)
        = some (.halted tm) ∧ tm.ones_counter = 6 ∧ tm.num_transitions = 14 := by
  have hg : generate_transition_table (initialize_tm 3 0 3 heap) 14642600 = champion3 :=
    generate_heap_irrelevant 3 0 3 heap 14642600
  have hsum : run_summary (run_turing_machine 14 champion3) = some (6, 14) := by decide!
  rw [hg]
  exact run_summary_halted _ _ _ hsum

theorem count_range_congr (n : Nat) (m1 m2 : Nat → tm_tape_cell_t)
    (h : ∀ a, a < n → (m1 a).symbol = (m2 a).symbol) :
    (List.range n).countP (fun a => (m1 a).symbol = .ONE)
      = (List.range n).countP (fun a => (m2 a).symbol = .ONE) := by
  apply List.countP_congr
  intro a ha
  rw [List.mem_range] at ha
  simp [h a ha]

theorem count_range_store (mem : Nat → tm_tape_cell_t) (p : Nat) (c : tm_tape_cell_t) (n : Nat)
    (hp : p < n) :
    (((List.range n).countP (fun a => (mem_store mem p c a).symbol = .ONE) : Nat) : Int)
      = ((List.range n).countP (fun a => (mem a).symbol = .ONE) : Nat)
        + (if c.symbol = .ONE then 1 else 0) - (if (mem p).symbol = .ONE then 1 else 0) := by
  induction n with
  | zero => omega
  | succ n ih =>
    rw [List.range_succ, List.countP_append, List.countP_append, List.countP_singleton,
      List.countP_singleton]
    by_cases hpn : p = n
    · subst hpn
      have hc := count_range_congr p (mem_store mem p c) mem (by
        intro a ha
        have : a ≠ p := by omega
        simp [mem_store, this])
      rw [hc]
      simp only [mem_store, if_true, decide_eq_true_eq]
      push_cast
      split_ifs <;> omega
    · have hlt : p < n := by omega
      have h := ih hlt
      have hn : n ≠ p := fun e => hpn e.symm
      simp only [mem_store, hn, if_false, decide_eq_true_eq]
      push_cast
      simp only [mem_store] at h
      omega

theorem ones_delta_eq (s w : tm_symbol_t) :
    ones_delta s w = (if w = .ONE then 1 else 0) - (if s = .ONE then 1 else 0) := by
  cases s <;> cases w <;> rfl

theorem write_count (tape : tm_tape_t) (w : tm_symbol_t)
    (h : tape.current_cell < tape.allocated) :
    ((write_symbol_at_cursor tape w).count_ones : Int)
      = tape.count_ones + ones_delta tape.read w := by
  have hs := count_range_store tape.mem tape.current_cell
    { tape.mem tape.current_cell with symbol := w } tape.allocated h
  rw [ones_delta_eq]
  unfold tm_tape_t.count_ones write_symbol_at_cursor tm_tape_t.read
  simp only at hs ⊢
  omega

theorem write_closed (tape : tm_tape_t) (w : tm_symbol_t) (h : tape_closed tape) :
    tape_closed (write_symbol_at_cursor tape w) := by
  obtain ⟨hc, hp⟩ := h
  refine ⟨hc, ?_⟩
  intro a ha
  unfold write_symbol_at_cursor mem_store
  simp only
  by_cases e : a = tape.current_cell
  · simp only [e, if_true]
    exact hp _ hc
  · simp only [e, if_false]
    exact hp a ha

theorem count_after_alloc (mem : Nat → tm_tape_cell_t) (cur p : Nat) (c1 c2 : tm_tape_cell_t)
    (hcur : cur < p) (h1 : c1.symbol = (mem cur).symbol) (h2 : c2.symbol = .ZERO) :
    (List.range (p + 1)).countP (fun a => (mem_store (mem_store mem cur c1) p c2 a).symbol = .ONE)
      = (List.range p).countP (fun a => (mem a).symbol = .ONE) := by
  rw [List.range_succ, List.countP_append, List.countP_singleton]
  have hc := count_range_congr p (mem_store (mem_store mem cur c1) p c2) mem (by
    intro a ha
    have hne : a ≠ p := by omega
    have hcp : cur ≠ p := by omega
    by_cases e : a = cur
    · simp [mem_store, hcp, e, h1]
    · simp [mem_store, hne, e])
  rw [hc]
  simp [mem_store, h2]

theorem getRightCell_count (tape : tm_tape_t) (h : tape.current_cell < tape.allocated) :
    (getRightCell tape).count_ones = tape.count_ones := by
  cases hr : (tape.mem tape.current_cell).right with
  | none =>
    simp only [getRightCell, hr]
    exact count_after_alloc tape.mem tape.current_cell tape.allocated _ _ h rfl rfl
  | some r =>
    simp only [getRightCell, hr]
    rfl

theorem getLeftCell_count (tape : tm_tape_t) (h : tape.current_cell < tape.allocated) :
    (getLeftCell tape).count_ones = tape.count_ones := by
  cases hl : (tape.mem tape.current_cell).left with
  | none =>
    simp only [getLeftCell, hl]
    exact count_after_alloc tape.mem tape.current_cell tape.allocated _ _ h rfl rfl
  | some l =>
    simp only [getLeftCell, hl]
    rfl

theorem getRightCell_closed (tape : tm_tape_t) (h : tape_closed tape) :
    tape_closed (getRightCell tape) := by
  obtain ⟨hc, hp⟩ := h
  cases hright : (tape.mem tape.current_cell).right with
  | none =>
    simp only [getRightCell, hright]
    refine ⟨Nat.lt_succ_self _, ?_⟩
    intro a ha
    dsimp only at ha ⊢
    simp only [mem_store]
    by_cases e1 : a = tape.allocated
    · simp only [e1, if_true]
      refine ⟨fun l hl => ?_, fun r hr => ?_⟩
      · cases hl; omega
      · cases hr
    · have ha2 : a < tape.allocated := by omega
      simp only [e1, if_false]
      by_cases e2 : a = tape.current_cell
      · simp only [e2, if_true]
        refine ⟨fun l hl => ?_, fun r hr => ?_⟩
        · have := (hp _ hc).1 l hl; omega
        · cases hr; omega
      · simp only [e2, if_false]
        refine ⟨fun l hl => ?_, fun r hr => ?_⟩
        · have := (hp a ha2).1 l hl; omega
        · have := (hp a ha2).2 r hr; omega
  | some r =>
    simp only [getRightCell, hright]
    exact ⟨(hp _ hc).2 r hright, hp⟩

theorem getLeftCell_closed (tape : tm_tape_t) (h : tape_closed tape) :
    tape_closed (getLeftCell tape) := by
  obtain ⟨hc, hp⟩ := h
  cases hleft : (tape.mem tape.current_cell).left with
  | none =>
    simp only [getLeftCell, hleft]
    refine ⟨Nat.lt_succ_self _, ?_⟩
    intro a ha
    dsimp only at ha ⊢
    simp only [mem_store]
    by_cases e1 : a = tape.allocated
    · simp only [e1, if_true]
      refine ⟨fun l hl => ?_, fun r hr => ?_⟩
      · cases hl
      · cases hr; omega
    · have ha2 : a < tape.allocated := by omega
      simp only [e1, if_false]
      by_cases e2 : a = tape.current_cell
      · simp only [e2, if_true]
        refine ⟨fun l hl => ?_, fun r hr => ?_⟩
        · cases hl; omega
        · have := (hp _ hc).2 r hr; omega
      · simp only [e2, if_false]
        refine ⟨fun l hl => ?_, fun r hr => ?_⟩
        · have := (hp a ha2).1 l hl; omega
        · have := (hp a ha2).2 r hr; omega
  | some l =>
    simp only [getLeftCell, hleft]
    exact ⟨(hp _ hc).1 l hleft, hp⟩

theorem process_transition_running (tm tm1 : tm_turing_machine_t)
    (h : process_transition tm = .running tm1) :
    ∃ t : tm_transition_t,
      tm.transition_table.entry tm.current_state tm.tape.read = some t ∧
      t.next_state ≠ INVALID_STATE ∧
      tm1.ones_counter = tm.ones_counter + ones_delta tm.tape.read t.write_symbol ∧
      tm1.num_transitions = int_wrap (tm.num_transitions + 1) ∧
      tm1.current_state = t.next_state ∧
      tm1.tape = (if t.shift_direction = .LEFT
        then getLeftCell (write_symbol_at_cursor tm.tape t.write_symbol)
        else getRightCell (write_symbol_at_cursor tm.tape t.write_symbol)) ∧
      tm1.transition_table = tm.transition_table ∧ tm1.final_state = tm.final_state ∧
      tm1.num_states = tm.num_states := by
  unfold process_transition at h
  cases hent : tm.transition_table.entry tm.current_state tm.tape.read with
  | none => simp [hent] at h
  | some t =>
    simp only [hent] at h
    by_cases hinv : t.next_state = INVALID_STATE
    · simp [hinv] at h
    · simp only [hinv, if_false, tm_outcome.running.injEq] at h
      subst h
      refine ⟨t, rfl, hinv, ?_, rfl, rfl, rfl, rfl, rfl, rfl⟩
      unfold ones_delta
      cases tm.tape.read <;> cases t.write_symbol <;> simp [Int.sub_eq_add_neg]

theorem step_invariant (tm tm1 : tm_turing_machine_t) (h : process_transition tm = .running tm1)
    (hc : tape_closed tm.tape) (ho : tm.ones_counter = (tm.tape.count_ones : Int)) :
    tape_closed tm1.tape ∧ tm1.ones_counter = (tm1.tape.count_ones : Int) := by
  obtain ⟨t, -, -, h1, -, -, h2, -, -, -⟩ := process_transition_running tm tm1 h
  have hw := write_closed tm.tape t.write_symbol hc
  have hcount := write_count tm.tape t.write_symbol hc.1
  rw [h1, h2]
  split_ifs
  · exact ⟨getLeftCell_closed _ hw, by rw [getLeftCell_count _ hw.1, hcount, ho]⟩
  · exact ⟨getRightCell_closed _ hw, by rw [getRightCell_count _ hw.1, hcount, ho]⟩

theorem run_steps_invariant (k : Nat) : ∀ tm tm1 : tm_turing_machine_t,
    run_steps k tm = some tm1 → tape_closed tm.tape →
    tm.ones_counter = (tm.tape.count_ones : Int) →
    tape_closed tm1.tape ∧ tm1.ones_counter = (tm1.tape.count_ones : Int) := by
  induction k with
  | zero =>
    intro tm tm1 h hc ho
    simp only [run_steps, Option.some.injEq] at h
    subst h
    exact ⟨hc, ho⟩
  | succ k ih =>
    intro tm tm1 h hc ho
    unfold run_steps at h
    cases hp : process_transition tm with
    | running tm2 =>
      simp only [hp] at h
      obtain ⟨hc2, ho2⟩ := step_invariant tm tm2 hp hc ho
      exact ih tm2 tm1 h hc2 ho2
    | halted_invalid tm2 => simp [hp] at h
    | fault => simp [hp] at h

/-- C8: for a machine started from `initialize_tm` (single blank cell, counters
zero) with any table loaded, after any number `k` of calls of
`process_transition` that each executed a defined entry, `ones_counter` equals
the number of materialized tape cells that hold `ONE`. -/
theorem ones_counter_consistent (num_states initial_state final_state : Int)
    (heap : Nat → tm_symbol_t → tm_transition_t) (table : tm_transition_table_t)
    (k : Nat) (tm1 : tm_turing_machine_t)
    (h : run_steps k
      { initialize_tm num_states initial_state final_state heap with transition_table := table }
      = some tm1) :
    tm1.ones_counter = (tm1.tape.count_ones : Int) := by
  refine (run_steps_invariant k _ tm1 h ?_ ?_).2
  · refine ⟨Nat.lt_succ_self 0, ?_⟩
    intro a _
    exact ⟨fun l hl => (by cases hl), fun r hr => (by cases hr)⟩
  · rfl

theorem ones_counter_consistent_witness :
    ∃ tm1 : tm_turing_machine_t,
      run_steps 6
        { initialize_tm 2 0 2 zeroed_heap with transition_table := champion2.transition_table }
        = some tm1 ∧
      tm1.ones_counter = (tm1.tape.count_ones : Int) :=
  have hs : (run_steps 6
      { initialize_tm 2 0 2 zeroed_heap with
        transition_table := champion2.transition_table }).isSome = true := by decide!
  ⟨Option.get _ hs, (Option.some_get hs).symm,
    ones_counter_consistent 2 0 2 zeroed_heap champion2.transition_table 6 _
      (Option.some_get hs).symm⟩

/-- C9 (as the code behaves): for every `N ≥ 1` and every integer `M < 0`,
`generate_transition_table` does not fail; `mpz_mod` and `mpz_fdiv_q` give
non-negative digits, so it sets all `2N` entries to a well-formed table, the
same table as for the non-negative integer `M mod (4(N+1))^(2N)`. -/
theorem decode_negative (N : Nat) (_ : 1 ≤ N) (M : Int) (_ : M < 0) (tm : tm_turing_machine_t)
    (hs : tm.num_states = (N : Int)) (hlen : tm.transition_table.table.length = N) :
    table_valid N (generate_transition_table tm M).transition_table ∧
      0 ≤ M % (4 * ((N : Int) + 1)) ^ (2 * N) ∧
      (generate_transition_table tm M).transition_table
        = (generate_transition_table tm (M % (4 * ((N : Int) + 1)) ^ (2 * N))).transition_table := by
  have hB := slot_base_pos N
  have hP : 0 < (slot_base N * slot_base N) ^ N := pow_pos (Int.mul_pos hB hB) N
  rw [← table_space_eq]
  refine ⟨decode_valid N tm M hs hlen, Int.emod_nonneg _ (ne_of_gt hP), ?_⟩
  rw [decode_of_length N tm M hs hlen, decode_of_length N tm _ hs hlen, number_rows_mod]

theorem decode_negative_witness :
    1 ≤ 1 ∧ (-1 : Int) < 0 ∧ (initialize_tm 1 0 1 zeroed_heap).num_states = ((1 : Nat) : Int) ∧
      (initialize_tm 1 0 1 zeroed_heap).transition_table.table.length = 1 ∧
      (table_valid 1 (generate_transition_table (initialize_tm 1 0 1 zeroed_heap) (-1)).transition_table ∧
        0 ≤ (-1 : Int) % (4 * (((1 : Nat) : Int) + 1)) ^ (2 * 1) ∧
        (generate_transition_table (initialize_tm 1 0 1 zeroed_heap) (-1)).transition_table
          = (generate_transition_table (initialize_tm 1 0 1 zeroed_heap)
              ((-1 : Int) % (4 * (((1 : Nat) : Int) + 1)) ^ (2 * 1))).transition_table) :=
  ⟨by decide, by decide, rfl, rfl,
    decode_negative 1 (by decide) (-1) (by decide) (initialize_tm 1 0 1 zeroed_heap) rfl rfl⟩

/-- C9 as stated fails: with `N = 1` the negative integer `-1` is decoded, not
rejected; every digit is `1`, so both entries become `1R` with next state `1`
(halt). -/
theorem decode_negative_accepted :
    (generate_transition_table (initialize_tm 1 0 1 zeroed_heap) (-1)).transition_table
      = ⟨[(⟨1, .ONE, .RIGHT⟩, ⟨1, .ONE, .RIGHT⟩)]⟩ := by
  decide!

/-- C10 (as the code behaves): for every `n ≤ 0`, `initialize_transition_table`
does not fail; its row loop never runs and it returns a table with no rows. -/
theorem initialize_table_nonpositive (n : Int) (hn : n ≤ 0)
    (heap : Nat → tm_symbol_t → tm_transition_t) :
    initialize_transition_table n heap = ⟨[]⟩ := by
  have h : n.toNat = 0 := Int.toNat_eq_zero.mpr hn
  simp [initialize_transition_table, h]

theorem initialize_table_nonpositive_witness :
    (-3 : Int) ≤ 0 ∧ initialize_transition_table (-3) zeroed_heap = ⟨[]⟩ :=
  ⟨by decide, initialize_table_nonpositive (-3) (by decide) zeroed_heap⟩

/-- C10 as stated fails: `initialize_transition_table(0)` returns a table (with
no rows) instead of failing. -/
theorem initialize_table_zero_returns :
    initialize_transition_table 0 zeroed_heap = ⟨[]⟩ := by
  decide

/-- C11: for every `n ≥ 1`, `initialize_tm(n, 0, n)` returns a machine with
`current_state = 0`, `final_state = n`, both counters `0`, a tape made of one
`ZERO` cell under the cursor with no left or right neighbour, and a table of
exactly `n` rows of two entries, each with `next_state = INVALID_STATE`. -/
theorem initialize_tm_postcondition (n : Nat) (_ : 1 ≤ n)
    (heap : Nat → tm_symbol_t → tm_transition_t) :
    (initialize_tm (n : Int) 0 (n : Int) heap).current_state = 0 ∧
    (initialize_tm (n : Int) 0 (n : Int) heap).final_state = (n : Int) ∧
    (initialize_tm (n : Int) 0 (n : Int) heap).num_states = (n : Int) ∧
    (initialize_tm (n : Int) 0 (n : Int) heap).ones_counter = 0 ∧
    (initialize_tm (n : Int) 0 (n : Int) heap).num_transitions = 0 ∧
    (initialize_tm (n : Int) 0 (n : Int) heap).tape.allocated = 1 ∧
    (initialize_tm (n : Int) 0 (n : Int) heap).tape.current_cell = 0 ∧
    (initialize_tm (n : Int) 0 (n : Int) heap).tape.mem 0
      = { symbol := .ZERO, left := none, right := none } ∧
    (initialize_tm (n : Int) 0 (n : Int) heap).transition_table.table.length = n ∧
    (∀ row ∈ (initialize_tm (n : Int) 0 (n : Int) heap).transition_table.table,
      row.1.next_state = INVALID_STATE ∧ row.2.next_state = INVALID_STATE) ∧
    (∀ (i : Nat) (s : tm_symbol_t), i < n →
      ∃ t : tm_transition_t,
        (initialize_tm (n : Int) 0 (n : Int) heap).transition_table.entry (i : Int) s = some t ∧
        t.next_state = INVALID_STATE) := by
  refine ⟨rfl, rfl, rfl, rfl, rfl, rfl, rfl, rfl, initialize_tm_length n 0 n heap, ?_, ?_⟩
  · intro row hrow
    simp only [initialize_tm, initialize_transition_table, List.mem_map] at hrow
    obtain ⟨i, -, rfl⟩ := hrow
    exact ⟨rfl, rfl⟩
  · intro i s hi
    rw [entry_natCast]
    simp only [initialize_tm, initialize_transition_table, Int.toNat_natCast]
    rw [List.getElem?_map, List.getElem?_range hi]
    cases s
    · exact ⟨_, rfl, rfl⟩
    · exact ⟨_, rfl, rfl⟩

theorem initialize_tm_postcondition_witness :
    1 ≤ 2 ∧
    ((initialize_tm ((2 : Nat) : Int) 0 ((2 : Nat) : Int) zeroed_heap).current_state = 0 ∧
    (initialize_tm ((2 : Nat) : Int) 0 ((2 : Nat) : Int) zeroed_heap).final_state = ((2 : Nat) : Int) ∧
    (initialize_tm ((2 : Nat) : Int) 0 ((2 : Nat) : Int) zeroed_heap).num_states = ((2 : Nat) : Int) ∧
    (initialize_tm ((2 : Nat) : Int) 0 ((2 : Nat) : Int) zeroed_heap).ones_counter = 0 ∧
    (initialize_tm ((2 : Nat) : Int) 0 ((2 : Nat) : Int) zeroed_heap).num_transitions = 0 ∧
    (initialize_tm ((2 : Nat) : Int) 0 ((2 : Nat) : Int) zeroed_heap).tape.allocated = 1 ∧
    (initialize_tm ((2 : Nat) : Int) 0 ((2 : Nat) : Int) zeroed_heap).tape.current_cell = 0 ∧
    (initialize_tm ((2 : Nat) : Int) 0 ((2 : Nat) : Int) zeroed_heap).tape.mem 0
      = { symbol := .ZERO, left := none, right := none } ∧
    (initialize_tm ((2 : Nat) : Int) 0 ((2 : Nat) : Int) zeroed_heap).transition_table.table.length = 2 ∧
    (∀ row ∈ (initialize_tm ((2 : Nat) : Int) 0 ((2 : Nat) : Int) zeroed_heap).transition_table.table,
      row.1.next_state = INVALID_STATE ∧ row.2.next_state = INVALID_STATE) ∧
    (∀ (i : Nat) (s : tm_symbol_t), i < 2 →
      ∃ t : tm_transition_t,
        (initialize_tm ((2 : Nat) : Int) 0 ((2 : Nat) : Int) zeroed_heap).transition_table.entry
          (i : Int) s = some t ∧
        t.next_state = INVALID_STATE)) :=
  ⟨by decide, initialize_tm_postcondition 2 (by decide) zeroed_heap⟩

theorem row_get_set_self (row : tm_row_t) (b : tm_symbol_t) (t : tm_transition_t) :
    row_get (row_set row b t) b = t := by
  cases b <;> rfl

theorem row_get_set_other (row : tm_row_t) (b b2 : tm_symbol_t) (t : tm_transition_t)
    (h : b2 ≠ b) : row_get (row_set row b t) b2 = row_get row b2 := by
  cases b <;> cases b2 <;> first | rfl | exact absurd rfl h

theorem set_transition_in_range (tb : tm_transition_table_t) (s : Int) (h0 : 0 ≤ s)
    (h1 : s.toNat < tb.table.length) (b : tm_symbol_t) (ns : Int) (w : tm_symbol_t)
    (d : tm_shift_t) :
    (set_transition tb s b ns w d).table
      = tb.table.set s.toNat (row_set (tb.table.get ⟨s.toNat, h1⟩) b ⟨ns, w, d⟩) := by
  unfold set_transition
  simp only [h0, if_true, List.getElem?_eq_getElem h1]
  rfl

/-- C12: for every table of `N` rows, every state `s` in `[0, N)` and symbol
`b`, after `set_transition(table, s, b, ns, w, d)` the entry at `(s, b)` is
exactly `(ns, w, d)`, every other entry reads as before, and the table still has
`N` rows (of two entries each). -/
theorem set_transition_frame (N : Nat) (tb : tm_transition_table_t) (hlen : tb.table.length = N)
    (s : Int) (h0 : 0 ≤ s) (h1 : s < (N : Int)) (b : tm_symbol_t) (ns : Int) (w : tm_symbol_t)
    (d : tm_shift_t) :
    (set_transition tb s b ns w d).entry s b = some ⟨ns, w, d⟩ ∧
    (∀ (s2 : Int) (b2 : tm_symbol_t), (s2 ≠ s ∨ b2 ≠ b) →
      (set_transition tb s b ns w d).entry s2 b2 = tb.entry s2 b2) ∧
    (set_transition tb s b ns w d).table.length = N := by
  have hs : s.toNat < tb.table.length := by omega
  have ht := set_transition_in_range tb s h0 hs b ns w d
  refine ⟨?_, ?_, ?_⟩
  · unfold tm_transition_table_t.entry
    rw [ht]
    simp only [h0, if_true, List.getElem?_set_self hs, Option.map_some', row_get_set_self]
  · intro s2 b2 hne
    unfold tm_transition_table_t.entry
    rw [ht]
    by_cases hs2 : 0 ≤ s2
    · simp only [hs2, if_true]
      by_cases e : s2 = s
      · subst e
        have hb : b2 ≠ b := by
          rcases hne with h | h
          · exact absurd rfl h
          · exact h
        rw [List.getElem?_set_self hs, List.getElem?_eq_getElem hs]
        simp only [Option.map_some', row_get_set_other _ _ _ _ hb]
        rfl
      · have hn : s.toNat ≠ s2.toNat := by omega
        rw [List.getElem?_set_ne hn]
    · simp only [hs2, if_false]
  · rw [ht, List.length_set, hlen]

theorem set_transition_frame_witness :
    champion2.transition_table.table.length = 2 ∧ (0 : Int) ≤ 1 ∧ (1 : Int) < ((2 : Nat) : Int) ∧
    ((set_transition champion2.transition_table 1 .ZERO 2 .ZERO .RIGHT).entry 1 .ZERO
        = some ⟨2, .ZERO, .RIGHT⟩ ∧
      (∀ (s2 : Int) (b2 : tm_symbol_t), (s2 ≠ 1 ∨ b2 ≠ .ZERO) →
        (set_transition champion2.transition_table 1 .ZERO 2 .ZERO .RIGHT).entry s2 b2
          = champion2.transition_table.entry s2 b2) ∧
      (set_transition champion2.transition_table 1 .ZERO 2 .ZERO .RIGHT).table.length = 2) :=
  ⟨by decide!, by decide, by decide,
    set_transition_frame 2 champion2.transition_table (by decide!) 1 (by decide) (by decide)
      .ZERO 2 .ZERO .RIGHT⟩

theorem entry_of_valid (N : Nat) (tb : tm_transition_table_t) (h : table_valid N tb)
    (i : Nat) (hi : i < N) (s : tm_symbol_t) :
    ∃ t : tm_transition_t, tb.entry (i : Int) s = some t ∧ slot_valid N t := by
  have hl : i < tb.table.length := by rw [h.1]; exact hi
  have hm : tb.table[i] ∈ tb.table := List.getElem_mem hl
  have hv := h.2 _ hm
  rw [entry_natCast, List.getElem?_eq_getElem hl]
  cases s
  · exact ⟨_, rfl, hv.1⟩
  · exact ⟨_, rfl, hv.2⟩

/-- C14: for every `N ≥ 1` and every integer `M ≥ 0` (also at or above
`(4(N+1))^(2N)`), `generate_transition_table` leaves a table of `N` rows in
which each of the `2N` entries is set with `next_state` in `[0, N]` (so none is
the sentinel `INVALID_STATE`); `write_symbol` and `shift_direction` are enum
values by type. -/
theorem decode_total_well_formed (N : Nat) (_ : 1 ≤ N) (M : Int) (_ : 0 ≤ M)
    (tm : tm_turing_machine_t) (hs : tm.num_states = (N : Int))
    (hlen : tm.transition_table.table.length = N) :
    table_valid N (generate_transition_table tm M).transition_table ∧
    ∀ (i : Nat) (s : tm_symbol_t), i < N →
      ∃ t : tm_transition_t,
        (generate_transition_table tm M).transition_table.entry (i : Int) s = some t ∧
        0 ≤ t.next_state ∧ t.next_state ≤ (N : Int) ∧ t.next_state ≠ INVALID_STATE := by
  have hv := decode_valid N tm M hs hlen
  refine ⟨hv, ?_⟩
  intro i s hi
  obtain ⟨t, ht, h0, h1⟩ := entry_of_valid N _ hv i hi s
  refine ⟨t, ht, h0, h1, ?_⟩
  unfold INVALID_STATE
  omega

theorem decode_total_well_formed_witness :
    1 ≤ 1 ∧ (0 : Int) ≤ 69 ∧ (initialize_tm 1 0 1 zeroed_heap).num_states = ((1 : Nat) : Int) ∧
    (initialize_tm 1 0 1 zeroed_heap).transition_table.table.length = 1 ∧
    (table_valid 1 (generate_transition_table (initialize_tm 1 0 1 zeroed_heap) 69).transition_table ∧
      ∀ (i : Nat) (s : tm_symbol_t), i < 1 →
        ∃ t : tm_transition_t,
          (generate_transition_table (initialize_tm 1 0 1 zeroed_heap) 69).transition_table.entry
            (i : Int) s = some t ∧
          0 ≤ t.next_state ∧ t.next_state ≤ ((1 : Nat) : Int) ∧ t.next_state ≠ INVALID_STATE) :=
  ⟨by decide, by decide, rfl, rfl,
    decode_total_well_formed 1 (by decide) 69 (by decide) (initialize_tm 1 0 1 zeroed_heap)
      rfl rfl⟩

/-- C19: for every `N ≥ 1` and every integer `M ≥ 0`, encoding the table decoded
from `M` returns `M mod (4(N+1))^(2N)`; decoding `M` and decoding
`M mod (4(N+1))^(2N)` give the same table; so for `M ≥ (4(N+1))^(2N)` the round
trip does not return `M`. -/
theorem codec_ignores_high_part (N : Nat) (_ : 1 ≤ N) (M : Int) (_ : 0 ≤ M)
    (tm : tm_turing_machine_t) (hs : tm.num_states = (N : Int))
    (hlen : tm.transition_table.table.length = N) :
    get_turing_machine_number (generate_transition_table tm M)
      = some (M % (4 * ((N : Int) + 1)) ^ (2 * N)) ∧
    (generate_transition_table tm M).transition_table
      = (generate_transition_table tm (M % (4 * ((N : Int) + 1)) ^ (2 * N))).transition_table ∧
    ((4 * ((N : Int) + 1)) ^ (2 * N) ≤ M →
      get_turing_machine_number (generate_transition_table tm M) ≠ some M) := by
  have hB := slot_base_pos N
  have hP : 0 < (slot_base N * slot_base N) ^ N := pow_pos (Int.mul_pos hB hB) N
  rw [table_space_eq] at hP
  have he := encode_decode_mod N M tm hs hlen
  refine ⟨he, ?_, ?_⟩
  · rw [decode_of_length N tm M hs hlen, decode_of_length N tm _ hs hlen, ← table_space_eq,
      number_rows_mod]
  · intro hge hcon
    rw [he] at hcon
    have hlt := Int.emod_lt_of_pos M hP
    have : M % (4 * ((N : Int) + 1)) ^ (2 * N) = M := Option.some.inj hcon
    omega

theorem codec_ignores_high_part_witness :
    1 ≤ 2 ∧ (0 : Int) ≤ 18371 + 144 ^ 4 ∧
    (initialize_tm 2 0 2 zeroed_heap).num_states = ((2 : Nat) : Int) ∧
    (initialize_tm 2 0 2 zeroed_heap).transition_table.table.length = 2 ∧
    (get_turing_machine_number
        (generate_transition_table (initialize_tm 2 0 2 zeroed_heap) (18371 + 144 ^ 4))
      = some ((18371 + 144 ^ 4) % (4 * (((2 : Nat) : Int) + 1)) ^ (2 * 2)) ∧
    (generate_transition_table (initialize_tm 2 0 2 zeroed_heap) (18371 + 144 ^ 4)).transition_table
      = (generate_transition_table (initialize_tm 2 0 2 zeroed_heap)
          ((18371 + 144 ^ 4) % (4 * (((2 : Nat) : Int) + 1)) ^ (2 * 2))).transition_table ∧
    ((4 * (((2 : Nat) : Int) + 1)) ^ (2 * 2) ≤ 18371 + 144 ^ 4 →
      get_turing_machine_number
        (generate_transition_table (initialize_tm 2 0 2 zeroed_heap) (18371 + 144 ^ 4))
        ≠ some (18371 + 144 ^ 4))) :=
  ⟨by decide, by decide, rfl, rfl,
    codec_ignores_high_part 2 (by decide) (18371 + 144 ^ 4) (by decide)
      (initialize_tm 2 0 2 zeroed_heap) rfl rfl⟩

theorem run_loop_invariant (N : Nat) (k : Nat) : ∀ tm : tm_turing_machine_t,
    table_valid N tm.transition_table → tm.final_state = (N : Int) →
    0 ≤ tm.current_state → tm.current_state ≤ (N : Int) →
    ∃ tm1 : tm_turing_machine_t, run_loop k tm = .running tm1 ∧
      0 ≤ tm1.current_state ∧ tm1.current_state ≤ (N : Int) ∧
      tm1.transition_table = tm.transition_table ∧ tm1.final_state = (N : Int) := by
  induction k with
  | zero =>
    intro tm _ hf h0 h1
    exact ⟨tm, rfl, h0, h1, rfl, hf⟩
  | succ k ih =>
    intro tm hv hf h0 h1
    unfold run_loop
    by_cases hfin : tm.current_state = tm.final_state
    · simp only [hfin, if_true]
      exact ⟨tm, rfl, h0, h1, rfl, hf⟩
    · simp only [hfin, if_false]
      have hlt : tm.current_state.toNat < N := by
        rw [hf] at hfin
        omega
      have hcast : ((tm.current_state.toNat : Nat) : Int) = tm.current_state :=
        Int.toNat_of_nonneg h0
      obtain ⟨t, ht, t0, t1⟩ := entry_of_valid N _ hv _ hlt tm.tape.read
      rw [hcast] at ht
      have hinv : t.next_state ≠ INVALID_STATE := by
        unfold INVALID_STATE
        omega
      have hstep : ∃ tm2, process_transition tm = .running tm2 ∧
          tm2.current_state = t.next_state ∧ tm2.transition_table = tm.transition_table ∧
          tm2.final_state = tm.final_state := by
        unfold process_transition
        simp only [ht, hinv, if_false]
        exact ⟨_, rfl, rfl, rfl, rfl⟩
      obtain ⟨tm2, hp, hc2, ht2, hf2⟩ := hstep
      rw [hp]
      simp only
      obtain ⟨tm1, hr, a0, a1, a2, a3⟩ := ih tm2 (by rw [ht2]; exact hv) (by rw [hf2, hf])
        (by rw [hc2]; exact t0) (by rw [hc2]; exact t1)
      exact ⟨tm1, hr, a0, a1, by rw [a2, ht2], a3⟩

/-- C20: for every `N ≥ 1` and `M ≥ 0`, starting from `initialize_tm(N, 0, N)`
with the table decoded from `M`, any number `k` of iterations of the run loop
(steps are taken only while `current_state != N`) ends in a machine that
returned from every step (no lookup outside the table, no invalid-state halt)
and whose `current_state` lies in `[0, N]`; whenever that machine is still
running, the next lookup finds a set entry of a row in `[0, N)`. -/
theorem decoded_run_stays_in_table (N : Nat) (hN : 1 ≤ N) (M : Int) (_ : 0 ≤ M)
    (heap : Nat → tm_symbol_t → tm_transition_t) (k : Nat) :
    ∃ tm1 : tm_turing_machine_t,
      run_loop k (generate_transition_table (initialize_tm (N : Int) 0 (N : Int) heap) M)
        = .running tm1 ∧
      0 ≤ tm1.current_state ∧ tm1.current_state ≤ (N : Int) ∧
      (tm1.current_state ≠ (N : Int) →
        tm1.current_state < (N : Int) ∧
        ∃ t : tm_transition_t,
          tm1.transition_table.entry tm1.current_state tm1.tape.read = some t ∧
          t.next_state ≠ INVALID_STATE) := by
  have hv := decode_valid N (initialize_tm (N : Int) 0 (N : Int) heap) M rfl
    (initialize_tm_length N 0 (N : Int) heap)
  obtain ⟨tm1, hr, h0, h1, ht, _⟩ := run_loop_invariant N k
    (generate_transition_table (initialize_tm (N : Int) 0 (N : Int) heap) M) hv rfl
    (le_refl _) (Int.natCast_nonneg N)
  refine ⟨tm1, hr, h0, h1, ?_⟩
  intro hne
  have hlt : tm1.current_state.toNat < N := by omega
  have hcast : ((tm1.current_state.toNat : Nat) : Int) = tm1.current_state :=
    Int.toNat_of_nonneg h0
  have hv1 : table_valid N tm1.transition_table := by rw [ht]; exact hv
  obtain ⟨t, hent, t0, _⟩ := entry_of_valid N _ hv1 _ hlt tm1.tape.read
  rw [hcast] at hent
  refine ⟨by omega, t, hent, ?_⟩
  unfold INVALID_STATE
  omega

theorem decoded_run_stays_in_table_witness :
    1 ≤ 2 ∧ (0 : Int) ≤ 18371 ∧
    ∃ tm1 : tm_turing_machine_t,
      run_loop 3
        (generate_transition_table
          (initialize_tm ((2 : Nat) : Int) 0 ((2 : Nat) : Int) zeroed_heap) 18371)
        = .running tm1 ∧
      0 ≤ tm1.current_state ∧ tm1.current_state ≤ ((2 : Nat) : Int) ∧
      (tm1.current_state ≠ ((2 : Nat) : Int) →
        tm1.current_state < ((2 : Nat) : Int) ∧
        ∃ t : tm_transition_t,
          tm1.transition_table.entry tm1.current_state tm1.tape.read = some t ∧
          t.next_state ≠ INVALID_STATE) :=
  ⟨by decide, by decide,
    decoded_run_stays_in_table 2 (by decide) 18371 (by decide) zeroed_heap 3⟩

theorem getLeftCell_symbol (tape : tm_tape_t) (a : Nat) (ha : a < tape.allocated) :
    ((getLeftCell tape).mem a).symbol = (tape.mem a).symbol := by
  have hne : a ≠ tape.allocated := by omega
  cases hl : (tape.mem tape.current_cell).left with
  | none =>
    simp only [getLeftCell, hl, mem_store, hne, if_false]
    by_cases e : a = tape.current_cell
    · simp only [e, if_true]
    · simp only [e, if_false]
  | some l => simp only [getLeftCell, hl]

theorem getRightCell_symbol (tape : tm_tape_t) (a : Nat) (ha : a < tape.allocated) :
    ((getRightCell tape).mem a).symbol = (tape.mem a).symbol := by
  have hne : a ≠ tape.allocated := by omega
  cases hr : (tape.mem tape.current_cell).right with
  | none =>
    simp only [getRightCell, hr, mem_store, hne, if_false]
    by_cases e : a = tape.current_cell
    · simp only [e, if_true]
    · simp only [e, if_false]
  | some r => simp only [getRightCell, hr]

theorem getLeftCell_link (tape : tm_tape_t) (h : tape.current_cell < tape.allocated) :
    ((getLeftCell tape).mem tape.current_cell).left = some (getLeftCell tape).current_cell := by
  have hne : tape.current_cell ≠ tape.allocated := by omega
  cases hl : (tape.mem tape.current_cell).left with
  | none => simp only [getLeftCell, hl, mem_store, hne, if_false, if_true]
  | some l => simp only [getLeftCell, hl]

theorem getRightCell_link (tape : tm_tape_t) (h : tape.current_cell < tape.allocated) :
    ((getRightCell tape).mem tape.current_cell).right = some (getRightCell tape).current_cell := by
  have hne : tape.current_cell ≠ tape.allocated := by omega
  cases hr : (tape.mem tape.current_cell).right with
  | none => simp only [getRightCell, hr, mem_store, hne, if_false, if_true]
  | some r => simp only [getRightCell, hr]

theorem write_symbol_read (tape : tm_tape_t) (w : tm_symbol_t) :
    ((write_symbol_at_cursor tape w).mem tape.current_cell).symbol = w := by
  simp only [write_symbol_at_cursor, mem_store, if_true]

theorem closed_form_slot_eq (N : Nat) (t : tm_transition_t) :
    closed_form_slot N t = slot_code N t := by
  unfold closed_form_slot slot_code
  ring

theorem slot_base_eq (N : Nat) : slot_base N = 4 * ((N : Int) + 1) := by
  unfold slot_base
  ring

theorem closed_form_term_succ (N len : Nat) (r : tm_row_t) (rest : List tm_row_t) (s b : Nat) :
    closed_form_term N (len + 1) ⟨r :: rest⟩ (s + 1) b = closed_form_term N len ⟨rest⟩ s b := by
  have e : len + 1 - 1 - (s + 1) = len - 1 - s := by omega
  unfold closed_form_term
  rw [entry_natCast, entry_natCast, e]
  simp only [List.getElem?_cons_succ]

theorem closed_form_rows (N : Nat) (rows : List tm_row_t) :
    ((List.range rows.length).map (fun s =>
      ((List.range 2).map (fun b => closed_form_term N rows.length ⟨rows⟩ s b)).sum)).sum
      = rows_value N rows := by
  induction rows with
  | nil => rfl
  | cons r rest ih =>
    have h2 : List.range 2 = [0, 1] := rfl
    rw [List.length_cons, List.range_succ_eq_map rest.length, List.map_cons, List.sum_cons,
      List.map_map]
    have hfun : ((fun s => ((List.range 2).map
        (fun b => closed_form_term N (rest.length + 1) ⟨r :: rest⟩ s b)).sum) ∘ Nat.succ)
        = (fun s => ((List.range 2).map
          (fun b => closed_form_term N rest.length ⟨rest⟩ s b)).sum) := by
      funext s
      simp only [Function.comp, Nat.succ_eq_add_one, closed_form_term_succ]
    rw [hfun, ih]
    have e0 : 2 * (rest.length + 1 - 1 - 0) + (1 - 0) = 2 * rest.length + 1 := by omega
    have e1 : 2 * (rest.length + 1 - 1 - 0) + (1 - 1) = 2 * rest.length := by omega
    simp only [h2, List.map_cons, List.map_nil, List.sum_cons, List.sum_nil, closed_form_term,
      entry_natCast, List.getElem?_cons_zero, Option.map_some', symbol_of_index, row_get, e0, e1,
      closed_form_slot_eq]
    simp only [rows_value, row_code, ← slot_base_eq, ← pow_two, ← pow_mul]
    simp
    ring

/-- C16: for every `N ≥ 1` and every fully set table of `N` rows with
`next_state` in `[0, N]`, `get_turing_machine_number` returns the closed form
`encode_closed_form`: the sum over states `s` and symbols `b` of
`(next_state + (N+1)*[shift = RIGHT] + 2(N+1)*[write = ONE]) * (4(N+1))^(2(N-1-s) + (1-b))`,
so the last state's read-1 transition is least significant and, within a
transition, `next_state`, then the shift bit, then the write bit. -/
theorem encode_is_closed_form (N : Nat) (_ : 1 ≤ N) (tm : tm_turing_machine_t)
    (hs : tm.num_states = (N : Int)) (hT : table_valid N tm.transition_table) :
    get_turing_machine_number tm = some (encode_closed_form N tm.transition_table) := by
  rw [encode_of_valid N tm hs hT.1]
  have h := closed_form_rows N tm.transition_table.table
  rw [hT.1] at h
  unfold encode_closed_form
  rw [h]

theorem encode_is_closed_form_witness :
    1 ≤ 2 ∧ champion2.num_states = ((2 : Nat) : Int) ∧ table_valid 2 champion2.transition_table ∧
      get_turing_machine_number champion2
        = some (encode_closed_form 2 champion2.transition_table) :=
  ⟨by decide, rfl, by decide!,
    encode_is_closed_form 2 (by decide) champion2 rfl (by decide!)⟩

theorem pow_base_sq (N k : Nat) :
    (slot_base N * slot_base N) ^ k = (4 * ((N : Int) + 1)) ^ (2 * k) := by
  rw [← slot_base_eq, ← pow_two, ← pow_mul]

theorem number_rows_getElem (N : Nat) (n : Nat) : ∀ (M : Int) (i : Nat), i < n →
    (number_rows N n M)[i]?
      = some (number_row N (M / (slot_base N * slot_base N) ^ (n - 1 - i))) := by
  have hB := slot_base_pos N
  have hBB : 0 < slot_base N * slot_base N := Int.mul_pos hB hB
  induction n with
  | zero => intro M i hi; omega
  | succ n ih =>
    intro M i hi
    rw [number_rows, number_rest_eq]
    by_cases hin : i < n
    · have hl : i < (number_rows N n (M / (slot_base N * slot_base N))).length := by
        rw [number_rows_length]; exact hin
      rw [List.getElem?_append_left hl, ih _ i hin]
      have e : n + 1 - 1 - i = (n - 1 - i) + 1 := by omega
      rw [e, pow_succ, Int.mul_comm ((slot_base N * slot_base N) ^ (n - 1 - i)),
        (int_divmod_mul M _ _ hBB (pow_pos hBB _)).1]
    · have hi2 : i = n := by omega
      subst hi2
      have hl : (number_rows N i (M / (slot_base N * slot_base N))).length ≤ i := by
        rw [number_rows_length]
      rw [List.getElem?_append_right hl, number_rows_length]
      simp

theorem decoded_entry (N : Nat) (M : Int) (tm : tm_turing_machine_t)
    (hs : tm.num_states = (N : Int)) (hlen : tm.transition_table.table.length = N)
    (i b : Nat) (hi : i < N) (hb : b < 2) :
    (generate_transition_table tm M).transition_table.entry (i : Int) (symbol_of_index b)
      = some (slot_of_number N (M / (4 * ((N : Int) + 1)) ^ (2 * (N - 1 - i) + (1 - b)))) := by
  have hB := slot_base_pos N
  rw [decode_of_length N tm M hs hlen, entry_natCast]
  simp only [number_rows_getElem N N M i hi, Option.map_some', pow_base_sq]
  have hP : 0 < (4 * ((N : Int) + 1)) ^ (2 * (N - 1 - i)) := by
    rw [← slot_base_eq]; exact pow_pos hB _
  interval_cases b
  · simp only [symbol_of_index, if_true, row_get, number_row, slot_rest_eq]
    have e : 2 * (N - 1 - i) + (1 - 0) = 2 * (N - 1 - i) + 1 := by omega
    rw [e, pow_succ, ← slot_base_eq, (int_divmod_mul M _ _ (by rw [slot_base_eq]; exact hP) hB).1]
  · simp only [symbol_of_index, row_get, number_row]
    rfl

theorem slot_of_number_fields (N : Nat) (X : Int) :
    (slot_of_number N X).next_state = X % ((N : Int) + 1) ∧
    ((slot_of_number N X).shift_direction = .RIGHT ↔ X / ((N : Int) + 1) % 2 = 1) ∧
    ((slot_of_number N X).write_symbol = .ONE ↔ X / (2 * ((N : Int) + 1)) % 2 = 1) := by
  have hb : (0 : Int) < (N : Int) + 1 := by
    have : (0 : Int) ≤ (N : Int) := Int.natCast_nonneg _
    omega
  have e : X / (2 * ((N : Int) + 1)) = X / ((N : Int) + 1) / 2 := by
    rw [Int.mul_comm, (int_divmod_mul X _ 2 hb (by decide)).1]
  rw [e]
  unfold slot_of_number symbol_of_int
  refine ⟨rfl, ?_, ?_⟩
  · rcases Int.emod_two_eq (X / ((N : Int) + 1)) with h | h <;> simp [h]
  · rcases Int.emod_two_eq (X / ((N : Int) + 1) / 2) with h | h <;> simp [h]

/-- C17 (as the code behaves): the per-transition digit order of
`generate_transition_table` is next-state, then shift, then write-symbol.  For
every `N ≥ 1` and `M ≥ 0`, the entry of state `i` and read symbol `b` is read
off `X = M div (4(N+1))^(2(N-1-i) + (1-b))` (so `X = M` for the last slot, state
`N-1` reading 1): `next_state = X mod (N+1)`, `shift = RIGHT` iff
`(X div (N+1)) mod 2 = 1`, and `write_symbol = ONE` iff
`(X div (2(N+1))) mod 2 = 1`. -/
theorem decode_digit_order (N : Nat) (hN : 1 ≤ N) (M : Int) (_ : 0 ≤ M)
    (tm : tm_turing_machine_t) (hs : tm.num_states = (N : Int))
    (hlen : tm.transition_table.table.length = N) :
    (∃ t : tm_transition_t,
      (generate_transition_table tm M).transition_table.entry ((N : Int) - 1) .ONE = some t ∧
      t.next_state = M % ((N : Int) + 1) ∧
      (t.shift_direction = .RIGHT ↔ M / ((N : Int) + 1) % 2 = 1) ∧
      (t.write_symbol = .ONE ↔ M / (2 * ((N : Int) + 1)) % 2 = 1)) ∧
    (∀ i b : Nat, i < N → b < 2 →
      ∃ t : tm_transition_t,
        (generate_transition_table tm M).transition_table.entry (i : Int) (symbol_of_index b)
          = some t ∧
        t.next_state = M / (4 * ((N : Int) + 1)) ^ (2 * (N - 1 - i) + (1 - b)) % ((N : Int) + 1) ∧
        (t.shift_direction = .RIGHT ↔
          M / (4 * ((N : Int) + 1)) ^ (2 * (N - 1 - i) + (1 - b)) / ((N : Int) + 1) % 2 = 1) ∧
        (t.write_symbol = .ONE ↔
          M / (4 * ((N : Int) + 1)) ^ (2 * (N - 1 - i) + (1 - b)) / (2 * ((N : Int) + 1)) % 2
            = 1)) := by
  constructor
  · have h := decoded_entry N M tm hs hlen (N - 1) 1 (by omega) (by decide)
    have e : 2 * (N - 1 - (N - 1)) + (1 - 1) = 0 := by omega
    have ec : ((N - 1 : Nat) : Int) = (N : Int) - 1 := by omega
    rw [e, pow_zero, Int.ediv_one, ec] at h
    exact ⟨_, h, slot_of_number_fields N M⟩
  · intro i b hi hb
    exact ⟨_, decoded_entry N M tm hs hlen i b hi hb, slot_of_number_fields N _⟩

theorem decode_digit_order_witness :
    1 ≤ 1 ∧ (0 : Int) ≤ 2 ∧ (initialize_tm 1 0 1 zeroed_heap).num_states = ((1 : Nat) : Int) ∧
    (initialize_tm 1 0 1 zeroed_heap).transition_table.table.length = 1 ∧
    ∃ t : tm_transition_t,
      (generate_transition_table (initialize_tm 1 0 1 zeroed_heap) 2).transition_table.entry
        (((1 : Nat) : Int) - 1) .ONE = some t ∧
      t.next_state = 2 % (((1 : Nat) : Int) + 1) ∧
      (t.shift_direction = .RIGHT ↔ (2 : Int) / (((1 : Nat) : Int) + 1) % 2 = 1) ∧
      (t.write_symbol = .ONE ↔ (2 : Int) / (2 * (((1 : Nat) : Int) + 1)) % 2 = 1) :=
  ⟨by decide, by decide, rfl, rfl,
    (decode_digit_order 1 (by decide) 2 (by decide) (initialize_tm 1 0 1 zeroed_heap)
      rfl rfl).1⟩

/-- C17 as stated fails: with `N = 1` and `M = 2` the last slot (state 0 reading
1) is decoded as write `ZERO`, shift `RIGHT`, although
`(M div (N+1)) mod 2 = 1` (the claim's test for write `ONE`) and
`(M div (2(N+1))) mod 2 = 0` (the claim's test for shift `LEFT`). -/
theorem decode_write_before_shift_fails :
    (generate_transition_table (initialize_tm 1 0 1 zeroed_heap) 2).transition_table.entry 0 .ONE
      = some ⟨0, .ZERO, .RIGHT⟩ ∧
    (2 : Int) / (1 + 1) % 2 = 1 ∧ (2 : Int) / (2 * (1 + 1)) % 2 = 0 := by
  decide!

theorem refines_write (tape : tm_tape_t) (ct : conceptual_tape) (pos : Nat → Int) (lo hi : Int)
    (s : tm_symbol_t) (h : tape_refines tape ct pos lo hi) :
    tape_refines (write_symbol_at_cursor tape s)
      { ct with cells := fun z => if z = ct.cursor then s else ct.cells z } pos lo hi := by
  obtain ⟨hc, hp, hcell, hinj, hout, hr, hl⟩ := h
  refine ⟨hc, hp, ?_, hinj, ?_, ?_, ?_⟩
  · intro a ha
    obtain ⟨b0, b1, bs⟩ := hcell a ha
    refine ⟨b0, b1, ?_⟩
    simp only [write_symbol_at_cursor, mem_store]
    by_cases e : a = tape.current_cell
    · simp only [e, if_true, hp]
    · have hne : pos a ≠ ct.cursor := by
        intro hcon
        exact e (hinj a _ ha hc (hcon.trans hp.symm))
      simp only [e, hne, if_false]
      exact bs
  · intro z hz
    obtain ⟨b0, b1, -⟩ := hcell _ hc
    have hne : z ≠ ct.cursor := by
      rw [← hp]
      rcases hz with hz | hz <;> omega
    simp only [hne, if_false]
    exact hout z hz
  · intro a ha
    have e : ((write_symbol_at_cursor tape s).mem a).right = (tape.mem a).right := by
      simp only [write_symbol_at_cursor, mem_store]
      by_cases e : a = tape.current_cell
      · simp only [e, if_true]
      · simp only [e, if_false]
    rw [e]
    exact hr a ha
  · intro a ha
    have e : ((write_symbol_at_cursor tape s).mem a).left = (tape.mem a).left := by
      simp only [write_symbol_at_cursor, mem_store]
      by_cases e : a = tape.current_cell
      · simp only [e, if_true]
      · simp only [e, if_false]
    rw [e]
    exact hl a ha

theorem refines_right (tape : tm_tape_t) (ct : conceptual_tape) (pos : Nat → Int) (lo hi : Int)
    (h : tape_refines tape ct pos lo hi) :
    ∃ (pos2 : Nat → Int) (lo2 hi2 : Int),
      tape_refines (getRightCell tape) { ct with cursor := ct.cursor + 1 } pos2 lo2 hi2 := by
  obtain ⟨hc, hp, hcell, hinj, hout, hr, hl⟩ := h
  cases hright : (tape.mem tape.current_cell).right with
  | some r =>
    obtain ⟨r0, r1⟩ := (hr _ hc).1 r hright
    refine ⟨pos, lo, hi, ?_⟩
    simp only [getRightCell, hright]
    exact ⟨r0, by rw [r1, hp], hcell, hinj, hout, hr, hl⟩
  | none =>
    have hhi : pos tape.current_cell = hi := (hr _ hc).2 hright
    have hlo : lo ≤ hi := by
      obtain ⟨b0, b1, -⟩ := hcell _ hc
      omega
    have hcp : tape.current_cell ≠ tape.allocated := by omega
    refine ⟨fun a => if a = tape.allocated then hi + 1 else pos a, lo, hi + 1, ?_⟩
    simp only [getRightCell, hright]
    refine ⟨Nat.lt_succ_self _, ?_, ?_, ?_, ?_, ?_, ?_⟩
    · simp only [if_true]
      omega
    · intro a ha
      dsimp only at ha ⊢
      by_cases e1 : a = tape.allocated
      · simp only [e1, mem_store, if_true]
        exact ⟨by omega, le_refl _, hout _ (Or.inr (by omega))⟩
      · have ha2 : a < tape.allocated := by omega
        obtain ⟨b0, b1, bs⟩ := hcell a ha2
        simp only [e1, mem_store, if_false]
        refine ⟨b0, by omega, ?_⟩
        by_cases e2 : a = tape.current_cell
        · simp only [e2, if_true]
          rw [← e2]
          exact bs
        · simp only [e2, if_false]
          exact bs
    · intro a b ha hb hab
      dsimp only at ha hb hab
      by_cases ea : a = tape.allocated <;> by_cases eb : b = tape.allocated
      · rw [ea, eb]
      · have hb2 : b < tape.allocated := by omega
        obtain ⟨-, b1, -⟩ := hcell b hb2
        simp only [ea, eb, if_true, if_false] at hab
        omega
      · have ha2 : a < tape.allocated := by omega
        obtain ⟨-, a1, -⟩ := hcell a ha2
        simp only [ea, eb, if_true, if_false] at hab
        omega
      · simp only [ea, eb, if_false] at hab
        exact hinj a b (by omega) (by omega) hab
    · intro z hz
      exact hout z (by omega)
    · intro a ha
      dsimp only at ha ⊢
      by_cases e1 : a = tape.allocated
      · simp only [e1, mem_store, if_true]
        exact ⟨fun r hr2 => (by cases hr2), fun _ => trivial⟩
      · have ha2 : a < tape.allocated := by omega
        simp only [e1, mem_store, if_false]
        by_cases e2 : a = tape.current_cell
        · simp only [e2, if_true]
          refine ⟨fun r hr2 => ?_, fun hn => (by cases hn)⟩
          cases hr2
          simp only [if_true, hcp, if_false]
          exact ⟨Nat.lt_succ_self _, by omega⟩
        · simp only [e2, if_false]
          refine ⟨fun r hr2 => ?_, fun hn => ?_⟩
          · obtain ⟨r0, r1⟩ := (hr a ha2).1 r hr2
            have : r ≠ tape.allocated := by omega
            simp only [this, if_false]
            exact ⟨by omega, r1⟩
          · have := (hr a ha2).2 hn
            exact absurd (hinj a _ ha2 hc (this.trans hhi.symm)) e2
    · intro a ha
      dsimp only at ha ⊢
      by_cases e1 : a = tape.allocated
      · simp only [e1, mem_store, if_true]
        refine ⟨fun l hl2 => ?_, fun hn => (by cases hn)⟩
        cases hl2
        simp only [hcp, if_false]
        exact ⟨by omega, by omega⟩
      · have ha2 : a < tape.allocated := by omega
        simp only [e1, mem_store, if_false]
        have hsame : (if a = tape.current_cell then
            ({ symbol := (tape.mem tape.current_cell).symbol,
               left := (tape.mem tape.current_cell).left,
               right := some tape.allocated } : tm_tape_cell_t)
            else tape.mem a).left = (tape.mem a).left := by
          by_cases e2 : a = tape.current_cell
          · simp only [e2, if_true]
          · simp only [e2, if_false]
        rw [hsame]
        refine ⟨fun l hl2 => ?_, fun hn => (hl a ha2).2 hn⟩
        obtain ⟨l0, l1⟩ := (hl a ha2).1 l hl2
        have : l ≠ tape.allocated := by omega
        simp only [this, if_false]
        exact ⟨by omega, l1⟩

theorem refines_left (tape : tm_tape_t) (ct : conceptual_tape) (pos : Nat → Int) (lo hi : Int)
    (h : tape_refines tape ct pos lo hi) :
    ∃ (pos2 : Nat → Int) (lo2 hi2 : Int),
      tape_refines (getLeftCell tape) { ct with cursor := ct.cursor - 1 } pos2 lo2 hi2 := by
  obtain ⟨hc, hp, hcell, hinj, hout, hr, hl⟩ := h
  cases hleft : (tape.mem tape.current_cell).left with
  | some l =>
    obtain ⟨l0, l1⟩ := (hl _ hc).1 l hleft
    refine ⟨pos, lo, hi, ?_⟩
    simp only [getLeftCell, hleft]
    exact ⟨l0, by rw [l1, hp], hcell, hinj, hout, hr, hl⟩
  | none =>
    have hlo : pos tape.current_cell = lo := (hl _ hc).2 hleft
    have hlh : lo ≤ hi := by
      obtain ⟨b0, b1, -⟩ := hcell _ hc
      omega
    have hcp : tape.current_cell ≠ tape.allocated := by omega
    refine ⟨fun a => if a = tape.allocated then lo - 1 else pos a, lo - 1, hi, ?_⟩
    simp only [getLeftCell, hleft]
    refine ⟨Nat.lt_succ_self _, ?_, ?_, ?_, ?_, ?_, ?_⟩
    · simp only [if_true]
      omega
    · intro a ha
      dsimp only at ha ⊢
      by_cases e1 : a = tape.allocated
      · simp only [e1, mem_store, if_true]
        exact ⟨le_refl _, by omega, hout _ (Or.inl (by omega))⟩
      · have ha2 : a < tape.allocated := by omega
        obtain ⟨b0, b1, bs⟩ := hcell a ha2
        simp only [e1, mem_store, if_false]
        refine ⟨by omega, b1, ?_⟩
        by_cases e2 : a = tape.current_cell
        · simp only [e2, if_true]
          rw [← e2]
          exact bs
        · simp only [e2, if_false]
          exact bs
    · intro a b ha hb hab
      dsimp only at ha hb hab
      by_cases ea : a = tape.allocated <;> by_cases eb : b = tape.allocated
      · rw [ea, eb]
      · have hb2 : b < tape.allocated := by omega
        obtain ⟨b0, -, -⟩ := hcell b hb2
        simp only [ea, eb, if_true, if_false] at hab
        omega
      · have ha2 : a < tape.allocated := by omega
        obtain ⟨a0, -, -⟩ := hcell a ha2
        simp only [ea, eb, if_true, if_false] at hab
        omega
      · simp only [ea, eb, if_false] at hab
        exact hinj a b (by omega) (by omega) hab
    · intro z hz
      exact hout z (by omega)
    · intro a ha
      dsimp only at ha ⊢
      by_cases e1 : a = tape.allocated
      · simp only [e1, mem_store, if_true]
        refine ⟨fun r hr2 => ?_, fun hn => (by cases hn)⟩
        cases hr2
        simp only [hcp, if_false]
        exact ⟨by omega, by omega⟩
      · have ha2 : a < tape.allocated := by omega
        simp only [e1, mem_store, if_false]
        have hsame : (if a = tape.current_cell then
            ({ symbol := (tape.mem tape.current_cell).symbol,
               left := some tape.allocated,
               right := (tape.mem tape.current_cell).right } : tm_tape_cell_t)
            else tape.mem a).right = (tape.mem a).right := by
          by_cases e2 : a = tape.current_cell
          · simp only [e2, if_true]
          · simp only [e2, if_false]
        rw [hsame]
        refine ⟨fun r hr2 => ?_, fun hn => (hr a ha2).2 hn⟩
        obtain ⟨r0, r1⟩ := (hr a ha2).1 r hr2
        have : r ≠ tape.allocated := by omega
        simp only [this, if_false]
        exact ⟨by omega, r1⟩
    · intro a ha
      dsimp only at ha ⊢
      by_cases e1 : a = tape.allocated
      · simp only [e1, mem_store, if_true]
        exact ⟨fun l hl2 => (by cases hl2), fun _ => trivial⟩
      · have ha2 : a < tape.allocated := by omega
        simp only [e1, mem_store, if_false]
        by_cases e2 : a = tape.current_cell
        · simp only [e2, if_true]
          refine ⟨fun l hl2 => ?_, fun hn => (by cases hn)⟩
          cases hl2
          simp only [if_true, hcp, if_false]
          exact ⟨Nat.lt_succ_self _, by omega⟩
        · simp only [e2, if_false]
          refine ⟨fun l hl2 => ?_, fun hn => ?_⟩
          · obtain ⟨l0, l1⟩ := (hl a ha2).1 l hl2
            have : l ≠ tape.allocated := by omega
            simp only [this, if_false]
            exact ⟨by omega, l1⟩
          · have := (hl a ha2).2 hn
            exact absurd (hinj a _ ha2 hc (this.trans hlo.symm)) e2

theorem refines_op (tape : tm_tape_t) (ct : conceptual_tape) (op : tape_op)
    (h : ∃ (pos : Nat → Int) (lo hi : Int), tape_refines tape ct pos lo hi) :
    ∃ (pos : Nat → Int) (lo hi : Int),
      tape_refines (apply_op tape op) (conceptual_op ct op) pos lo hi := by
  obtain ⟨pos, lo, hi, h⟩ := h
  cases op with
  | moveLeft => exact refines_left tape ct pos lo hi h
  | moveRight => exact refines_right tape ct pos lo hi h
  | putOne => exact ⟨pos, lo, hi, refines_write tape ct pos lo hi .ONE h⟩
  | putZero => exact ⟨pos, lo, hi, refines_write tape ct pos lo hi .ZERO h⟩

theorem refines_ops (ops : List tape_op) : ∀ (tape : tm_tape_t) (ct : conceptual_tape),
    (∃ (pos : Nat → Int) (lo hi : Int), tape_refines tape ct pos lo hi) →
    ∃ (pos : Nat → Int) (lo hi : Int),
      tape_refines (apply_ops tape ops) (conceptual_ops ct ops) pos lo hi := by
  induction ops with
  | nil => intro tape ct h; exact h
  | cons op ops ih =>
    intro tape ct h
    exact ih _ _ (refines_op tape ct op h)

theorem refines_initial (num_states initial_state final_state : Int)
    (heap : Nat → tm_symbol_t → tm_transition_t) :
    tape_refines (initialize_tm num_states initial_state final_state heap).tape conceptual_blank
      (fun _ => 0) 0 0 := by
  refine ⟨Nat.lt_succ_self 0, rfl, ?_, ?_, ?_, ?_, ?_⟩
  · intro a _
    exact ⟨le_refl _, le_refl _, rfl⟩
  · intro a b ha hb _
    have ha2 : a < 1 := ha
    have hb2 : b < 1 := hb
    omega
  · intro z _
    rfl
  · intro a _
    exact ⟨fun r hr => (by cases hr), fun _ => rfl⟩
  · intro a _
    exact ⟨fun l hl => (by cases hl), fun _ => rfl⟩

theorem refines_read (tape : tm_tape_t) (ct : conceptual_tape) (pos : Nat → Int) (lo hi : Int)
    (h : tape_refines tape ct pos lo hi) : tape.read = ct.read := by
  obtain ⟨hc, hp, hcell, -⟩ := h
  unfold tm_tape_t.read conceptual_tape.read
  rw [← hp]
  exact ((hcell _ hc).2.2).symm

theorem refines_symmetric (tape : tm_tape_t) (ct : conceptual_tape) (pos : Nat → Int)
    (lo hi : Int) (h : tape_refines tape ct pos lo hi) : tape_symmetric tape := by
  obtain ⟨hc, hp, hcell, hinj, hout, hr, hl⟩ := h
  intro c hcl
  refine ⟨fun r hr2 => ?_, fun l hl2 => ?_⟩
  · obtain ⟨r0, r1⟩ := (hr c hcl).1 r hr2
    refine ⟨r0, ?_⟩
    cases hleft : (tape.mem r).left with
    | none =>
      have := (hl r r0).2 hleft
      obtain ⟨c0, -, -⟩ := hcell c hcl
      omega
    | some l =>
      obtain ⟨l0, l1⟩ := (hl r r0).1 l hleft
      rw [hinj l c l0 hcl (by omega)]
  · obtain ⟨l0, l1⟩ := (hl c hcl).1 l hl2
    refine ⟨l0, ?_⟩
    cases hright : (tape.mem l).right with
    | none =>
      have := (hr l l0).2 hright
      obtain ⟨-, c1, -⟩ := hcell c hcl
      omega
    | some r =>
      obtain ⟨r0, r1⟩ := (hr l l0).1 r hright
      rw [hinj r c r0 hcl (by omega)]

theorem left_right_returns (tape : tm_tape_t) (hs : tape_symmetric tape)
    (hc : tape.current_cell < tape.allocated) :
    (getRightCell (getLeftCell tape)).current_cell = tape.current_cell ∧
    (getLeftCell (getRightCell tape)).current_cell = tape.current_cell := by
  constructor
  · cases hleft : (tape.mem tape.current_cell).left with
    | none =>
      have hstep : getLeftCell tape =
          { mem := mem_store
              (mem_store tape.mem tape.current_cell
                { tape.mem tape.current_cell with left := some tape.allocated })
              tape.allocated
              { symbol := .ZERO, left := none, right := some tape.current_cell }
            allocated := tape.allocated + 1
            current_cell := tape.allocated } := by
        simp only [getLeftCell, hleft]
      rw [hstep]
      simp only [getRightCell, mem_store, if_true]
    | some l =>
      have hback := ((hs _ hc).2 l hleft).2
      have hstep : getLeftCell tape = { tape with current_cell := l } := by
        simp only [getLeftCell, hleft]
      rw [hstep]
      simp only [getRightCell, hback]
  · cases hright : (tape.mem tape.current_cell).right with
    | none =>
      have hstep : getRightCell tape =
          { mem := mem_store
              (mem_store tape.mem tape.current_cell
                { tape.mem tape.current_cell with right := some tape.allocated })
              tape.allocated
              { symbol := .ZERO, left := some tape.current_cell, right := none }
            allocated := tape.allocated + 1
            current_cell := tape.allocated } := by
        simp only [getRightCell, hright]
      rw [hstep]
      simp only [getLeftCell, mem_store, if_true]
    | some r =>
      have hback := ((hs _ hc).1 r hright).2
      have hstep : getRightCell tape = { tape with current_cell := r } := by
        simp only [getRightCell, hright]
      rw [hstep]
      simp only [getLeftCell, hback]

/-- C13: starting from the single-cell tape of `initialize_tm`, after any finite
sequence of `getLeftCell`, `getRightCell`, `writeOne` and `writeZero`, every
materialized cell `c` with a right neighbour `r` is the left neighbour of `r`,
and every materialized cell with a left neighbour `l` is the right neighbour of
`l` (neighbours are materialized cells); and a move left followed by a move
right, or right followed by left, brings the cursor back to the same cell. -/
theorem tape_symmetry_invariant (num_states initial_state final_state : Int)
    (heap : Nat → tm_symbol_t → tm_transition_t) (ops : List tape_op) :
    tape_symmetric (apply_ops (initialize_tm num_states initial_state final_state heap).tape ops) ∧
    (getRightCell (getLeftCell
      (apply_ops (initialize_tm num_states initial_state final_state heap).tape ops))).current_cell
      = (apply_ops (initialize_tm num_states initial_state final_state heap).tape ops).current_cell ∧
    (getLeftCell (getRightCell
      (apply_ops (initialize_tm num_states initial_state final_state heap).tape ops))).current_cell
      = (apply_ops (initialize_tm num_states initial_state final_state heap).tape ops).current_cell := by
  obtain ⟨pos, lo, hi, h⟩ := refines_ops ops _ _
    ⟨_, _, _, refines_initial num_states initial_state final_state heap⟩
  have hs := refines_symmetric _ _ pos lo hi h
  exact ⟨hs, left_right_returns _ hs h.1⟩

/-- C18: the linked tape refines the conceptual tape (a symbol at every integer
position, `ZERO` everywhere at the start, integer cursor; left/right are cursor
`-1`/`+1`, a write changes the cursor's position only).  After every finite
sequence of `getLeftCell`, `getRightCell`, `writeOne`, `writeZero` from the tape
of `initialize_tm`, the materialized cells carry positions under which the
linked tape represents the conceptual one, and the symbol under the cursor is
the same on both; on any tape a newly materialized cell reads `ZERO`, and a move
changes no materialized cell's symbol. -/
theorem linked_tape_refines_conceptual (num_states initial_state final_state : Int)
    (heap : Nat → tm_symbol_t → tm_transition_t) (ops : List tape_op) :
    (apply_ops (initialize_tm num_states initial_state final_state heap).tape ops).read
      = (conceptual_ops conceptual_blank ops).read ∧
    (∃ (pos : Nat → Int) (lo hi : Int),
      tape_refines (apply_ops (initialize_tm num_states initial_state final_state heap).tape ops)
        (conceptual_ops conceptual_blank ops) pos lo hi) ∧
    (∀ tape : tm_tape_t,
      ((tape.mem tape.current_cell).left = none → (getLeftCell tape).read = .ZERO) ∧
      ((tape.mem tape.current_cell).right = none → (getRightCell tape).read = .ZERO) ∧
      (∀ a, a < tape.allocated →
        ((getLeftCell tape).mem a).symbol = (tape.mem a).symbol ∧
        ((getRightCell tape).mem a).symbol = (tape.mem a).symbol)) := by
  have hex := refines_ops ops _ _
    ⟨_, _, _, refines_initial num_states initial_state final_state heap⟩
  obtain ⟨pos, lo, hi, h⟩ := hex
  refine ⟨refines_read _ _ pos lo hi h, ⟨pos, lo, hi, h⟩, ?_⟩
  intro tape
  refine ⟨fun hl => ?_, fun hr => ?_, fun a ha => ?_⟩
  · simp only [tm_tape_t.read, getLeftCell, hl, mem_store, if_true]
  · simp only [tm_tape_t.read, getRightCell, hr, mem_store, if_true]
  · exact ⟨getLeftCell_symbol tape a ha, getRightCell_symbol tape a ha⟩

/-- C7: `process_transition` does not keep the counters on the invalid halt; it
updates them before it tests the sentinel.  On a fresh one-state machine (entry
`(0, ZERO)` never set) the step halts with `num_transitions = 1`, not `0`.  On
`gap_machine`, after two steps the counters are `1` and `2`, the tape holds one
`ONE` and the cursor is on it in state `A`, whose entry for `ONE` was never set;
the third step halts in the invalid branch with `ones_counter = 0` and
`num_transitions = 3` while the tape still holds one `ONE`. -/
theorem undefined_halt_breaks_counters :
    ((initialize_tm 1 0 1 zeroed_heap).transition_table.entry 0 .ZERO
        = some ⟨INVALID_STATE, .ZERO, .LEFT⟩ ∧
      (initialize_tm 1 0 1 zeroed_heap).ones_counter = 0 ∧
      (initialize_tm 1 0 1 zeroed_heap).num_transitions = 0 ∧
      halt_invalid_summary (process_transition (initialize_tm 1 0 1 zeroed_heap))
        = some (0, 1, 0)) ∧
    ((run_steps 2 gap_machine).map
        (fun tm => (tm.ones_counter, tm.num_transitions, tm.tape.count_ones, tm.tape.read,
          (tm.transition_table.entry tm.current_state tm.tape.read).map
            (fun t => t.next_state)))
        = some (1, 2, 1, .ONE, some INVALID_STATE) ∧
      (run_steps 2 gap_machine).bind (fun tm => halt_invalid_summary (process_transition tm))
        = some (0, 3, 1)) := by
  decide!

theorem int_wrap_in_range (x : Int) (h0 : INT_MIN ≤ x) (h1 : x ≤ INT_MAX) : int_wrap x = x := by
  unfold INT_MIN at h0
  unfold INT_MAX at h1
  unfold int_wrap
  omega

theorem int_wrap_succ (x : Int) : int_wrap (int_wrap x + 1) = int_wrap (x + 1) := by
  unfold int_wrap
  omega

theorem process_transition_defined (tm : tm_turing_machine_t) (t : tm_transition_t)
    (ht : tm.transition_table.entry tm.current_state tm.tape.read = some t)
    (hdef : t.next_state ≠ INVALID_STATE) :
    process_transition tm = .running
      { tm with
        ones_counter := tm.ones_counter + ones_delta tm.tape.read t.write_symbol
        num_transitions := int_wrap (tm.num_transitions + 1)
        tape := (if t.shift_direction = .LEFT
          then getLeftCell (write_symbol_at_cursor tm.tape t.write_symbol)
          else getRightCell (write_symbol_at_cursor tm.tape t.write_symbol))
        current_state := t.next_state } := by
  unfold process_transition
  simp only [ht, hdef, if_false]
  have ho : (if tm.tape.read = .ONE ∧ t.write_symbol = .ZERO then
      (if tm.tape.read = .ZERO ∧ t.write_symbol = .ONE then tm.ones_counter + 1
        else tm.ones_counter) - 1
      else if tm.tape.read = .ZERO ∧ t.write_symbol = .ONE then tm.ones_counter + 1
        else tm.ones_counter) = tm.ones_counter + ones_delta tm.tape.read t.write_symbol := by
    unfold ones_delta
    cases tm.tape.read <;> cases t.write_symbol <;> simp [Int.sub_eq_add_neg]
  rw [ho]

theorem looper_table :
    looper.transition_table
      = ⟨[(⟨1, .ZERO, .RIGHT⟩, ⟨1, .ZERO, .RIGHT⟩), (⟨0, .ZERO, .LEFT⟩, ⟨0, .ZERO, .LEFT⟩)]⟩ := by
  decide!

theorem looper_first_step :
    ∃ tm1 : tm_turing_machine_t, process_transition looper = .running tm1 ∧ looper_state tm1 1 := by
  have ht : looper.transition_table.entry looper.current_state looper.tape.read
      = some ⟨1, .ZERO, .RIGHT⟩ := by decide!
  refine ⟨_, process_transition_defined looper _ ht (by decide), ?_⟩
  decide!

theorem looper_step (tm : tm_turing_machine_t) (n : Nat) (h : looper_state tm n) :
    ∃ tm1 : tm_turing_machine_t, process_transition tm = .running tm1 ∧
      looper_state tm1 (n + 1) := by
  obtain ⟨htab, hal, hm0, hm1, hnt, hpar⟩ := h
  rcases hpar with ⟨hn, hs, hc⟩ | ⟨hn, hs, hc⟩
  · have hread : tm.tape.read = .ZERO := by
      unfold tm_tape_t.read
      rw [hc, hm1]
    have ht : tm.transition_table.entry tm.current_state tm.tape.read
        = some ⟨0, .ZERO, .LEFT⟩ := by
      rw [htab, looper_table, hs, hread]
      rfl
    refine ⟨_, process_transition_defined tm _ ht (by decide), ?_⟩
    have hw : (write_symbol_at_cursor tm.tape .ZERO).mem 1
        = { symbol := .ZERO, left := some 0, right := none } := by
      simp only [write_symbol_at_cursor, mem_store, hc, if_true, hm1]
    have hw0 : (write_symbol_at_cursor tm.tape .ZERO).mem 0 = tm.tape.mem 0 := by
      simp only [write_symbol_at_cursor, mem_store, hc]
      rfl
    have hg : getLeftCell (write_symbol_at_cursor tm.tape .ZERO)
        = { write_symbol_at_cursor tm.tape .ZERO with current_cell := 0 } := by
      have hcw : (write_symbol_at_cursor tm.tape .ZERO).current_cell = 1 := hc
      simp only [getLeftCell, hcw, hw]
    simp only [if_true]
    rw [hg]
    refine ⟨htab, hal, ?_, hw, ?_, Or.inr ⟨by omega, rfl, rfl⟩⟩
    · exact hw0.trans hm0
    · show int_wrap (tm.num_transitions + 1) = int_wrap ((n + 1 : Nat) : Int)
      rw [hnt, int_wrap_succ]
      push_cast
      rfl
  · have hread : tm.tape.read = .ZERO := by
      unfold tm_tape_t.read
      rw [hc, hm0]
    have ht : tm.transition_table.entry tm.current_state tm.tape.read
        = some ⟨1, .ZERO, .RIGHT⟩ := by
      rw [htab, looper_table, hs, hread]
      rfl
    refine ⟨_, process_transition_defined tm _ ht (by decide), ?_⟩
    have hw : (write_symbol_at_cursor tm.tape .ZERO).mem 0
        = { symbol := .ZERO, left := none, right := some 1 } := by
      simp only [write_symbol_at_cursor, mem_store, hc, if_true, hm0]
    have hw1 : (write_symbol_at_cursor tm.tape .ZERO).mem 1 = tm.tape.mem 1 := by
      simp only [write_symbol_at_cursor, mem_store, hc]
      rfl
    have hg : getRightCell (write_symbol_at_cursor tm.tape .ZERO)
        = { write_symbol_at_cursor tm.tape .ZERO with current_cell := 1 } := by
      have hcw : (write_symbol_at_cursor tm.tape .ZERO).current_cell = 0 := hc
      simp only [getRightCell, hcw, hw]
    have hnl : (tm_shift_t.RIGHT = tm_shift_t.LEFT) = False := by simp
    simp only [hnl, if_false]
    rw [hg]
    refine ⟨htab, hal, hw, ?_, ?_, Or.inl ⟨by omega, rfl, rfl⟩⟩
    · exact hw1.trans hm1
    · show int_wrap (tm.num_transitions + 1) = int_wrap ((n + 1 : Nat) : Int)
      rw [hnt, int_wrap_succ]
      push_cast
      rfl

theorem looper_steps (k : Nat) : ∀ (tm : tm_turing_machine_t) (n : Nat), looper_state tm n →
    ∃ tm1 : tm_turing_machine_t, run_steps k tm = some tm1 ∧ looper_state tm1 (n + k) := by
  induction k with
  | zero => intro tm n h; exact ⟨tm, rfl, h⟩
  | succ k ih =>
    intro tm n h
    obtain ⟨tm1, hp, h1⟩ := looper_step tm n h
    obtain ⟨tm2, hr, h2⟩ := ih tm1 (n + 1) h1
    refine ⟨tm2, ?_, ?_⟩
    · rw [run_steps, hp]
      exact hr
    · have e : n + (k + 1) = n + 1 + k := by omega
      rw [e]
      exact h2

theorem looper_reaches (k : Nat) :
    ∃ tm1 : tm_turing_machine_t, run_steps (k + 1) looper = some tm1 ∧
      looper_state tm1 (k + 1) := by
  obtain ⟨tm1, hp, h1⟩ := looper_first_step
  obtain ⟨tm2, hr, h2⟩ := looper_steps k tm1 1 h1
  refine ⟨tm2, ?_, ?_⟩
  · rw [run_steps, hp]
    exact hr
  · have e : k + 1 = 1 + k := by omega
    rw [e]
    exact h2

end TMBB
